import Mathlib

/-!
Verification of the AT-command-handler protocol engine.

Shallow embedding of the C++ sources:
  * `src/src/at_cmd_handler.cpp`  - response classifier, payload accumulator,
    unsolicited dispatcher (section 1 below);
  * `src/src/at_cmd.cpp`          - prompt dialogue, send/receive loop;
  * `src/src/os_queue.hpp`        - 1-slot overwrite queue over a counting
    semaphore (FreeRTOS counting-semaphore semantics: a give on a semaphore
    already at its maximum count fails and leaves the count unchanged);
  * `src/src/string_buf_tx.cpp`   - TX byte source;
  * `src/src/string_buf_rx.hpp` and `src/src/cyclic_buf.hpp` - RX line framer.

Byte strings are modelled as `List Char`.  Machine indices of the cyclic
buffers are `Nat` with an explicit `% size`; the source masks with
`size - 1`, which agrees with `% size` because the size is statically
required to be a power of two.
-/

namespace ATCH

/-- `enum class at_err` from `at_cmd_handler.hpp`. -/
inductive at_err where
  | ok
  | error
  | cme_error
  | handling_cmd
  | prompt_request
  | unknown
  | timeout
  deriving DecidableEq, Repr

/-- CR-LF, the line joiner used by the accumulator. -/
def crlf : List Char := "\r\n".toList

/-- `at_prefix` (`"AT"`) from `at_cmd_handler.cpp`. -/
def at_prefix_str : List Char := "AT".toList

/-- `cme_error_str` (`"+CME ERROR"`) from `at_cmd_handler.cpp`. -/
def cme_error_str : List Char := "+CME ERROR".toList

/--
The compile-time command table.  The C++ generates, from the user's
configuration header, the array `at_cmd_str` of uppercase command names
(index 0 is the empty name of the bare `AT` command) and the count
`at_not_extended_cmds_num` of non-extended commands.  Commands are the
indices into `names`; the sentinel `at_cmd::none` is modelled as `none` of
`Option Nat` at use sites.
-/
structure at_cmd_table where
  names : List (List Char)
  not_extended_num : Nat
  deriving Repr

/-- `string_starts_with(input, searched)`: `input.compare(0, searched.length(), searched) == 0`. -/
def string_starts_with (input searched : List Char) : Bool :=
  searched.isPrefixOf input

/-- `is_extended_at_cmd(cmd)`: `to_u_type(cmd) > at_not_extended_cmds_num`. -/
def is_extended_at_cmd (tbl : at_cmd_table) (cmd : Nat) : Bool :=
  tbl.not_extended_num < cmd

/-- Name lookup `at_cmd_str[to_u_type(command)]`. -/
def cmd_name (tbl : at_cmd_table) (cmd : Nat) : List Char :=
  tbl.names.getD cmd []

/-- `is_echo(response)`: the line starts with `"AT"`. -/
def is_echo (response : List Char) : Bool :=
  string_starts_with response at_prefix_str

/-- `is_response_containing_command_name(response)`: `response[0] == '+'`
(for the empty string `operator[]` yields the terminating NUL). -/
def is_response_containing_command_name (response : List Char) : Bool :=
  response.headD (Char.ofNat 0) = '+'

/-- `is_response_to_specific_extended_command(response, command)`:
`response.compare(1, cmd_name.length(), cmd_name) == 0`, i.e. the command
name occurs right after position 0. -/
def is_response_to_specific_extended_command (tbl : at_cmd_table)
    (response : List Char) (command : Nat) : Bool :=
  string_starts_with (response.drop 1) (cmd_name tbl command)

/-- `is_response_to_command(response, command)` from `at_cmd_handler.cpp`. -/
def is_response_to_command (tbl : at_cmd_table) (response : List Char)
    (command : Nat) : Bool :=
  if ¬ is_extended_at_cmd tbl command then false
  else if ¬ is_response_containing_command_name response then true
  else is_response_to_specific_extended_command tbl response command

/-- `response_to_at_err(response, awaited_command)`. -/
def response_to_at_err (tbl : at_cmd_table) (response : List Char)
    (awaited_command : Nat) : at_err :=
  if response = "OK".toList then .ok
  else if response = "ERROR".toList then .error
  else if response = ">".toList then .prompt_request
  else if string_starts_with response cme_error_str then .cme_error
  else if is_response_to_command tbl response awaited_command then .handling_cmd
  else .unknown

/-- `calc_prefix_len_in_response_on_extended_cmd(response, command)`:
`1 + name.length + 1`, plus one more when the character at that index is a
space.  Out-of-range reads of `response[sz]` yield NUL in the model. -/
def calc_prefix_len_in_response_on_extended_cmd (tbl : at_cmd_table)
    (response : List Char) (command : Nat) : Nat :=
  let sz := 1 + (cmd_name tbl command).length + 1
  if response.getD sz (Char.ofNat 0) = ' ' then sz + 1 else sz

/-- `remove_prefix_from_response(response, n)`: erase the first `n` bytes. -/
def remove_prefix_from_response (response : List Char) (n : Nat) : List Char :=
  response.drop n

/-- `append_string_and_if_nonempty_add_newline(src, dst)`. -/
def append_string_and_if_nonempty_add_newline (src dst : List Char) : List Char :=
  if dst.isEmpty then src else dst ++ crlf ++ src

/-- `is_specific_unsolicited_msg(message, unsolicited_msg)` with the table
`at_unsolicited_msg_str` passed explicitly. -/
def is_specific_unsolicited_msg (msg_tbl : List (List Char))
    (message : List Char) (unsolicited_msg : Nat) : Bool :=
  string_starts_with message (msg_tbl.getD unsolicited_msg [])

/-- `at_unsolicited_cmd_record`: the callback is identified by `id`; its
behaviour is supplied separately (see `callback_behaviour`). -/
structure at_unsolicited_cmd_record where
  id : Nat
  command : Nat
  deriving DecidableEq, Repr

/-- `at_unsolicited_msg_record`. -/
structure at_unsolicited_msg_record where
  id : Nat
  message : Nat
  deriving DecidableEq, Repr

/-- The two registries owned by `at_cmd_handler`. -/
structure at_cmd_handler_state where
  unsolicited_cmd_handlers : List at_unsolicited_cmd_record
  unsolicited_msg_handlers : List at_unsolicited_msg_record
  deriving DecidableEq, Repr

/-- The `std::function` callbacks, abstracted: `cmd_ret id payload` (resp.
`msg_ret id`) is the boolean the callback returns (`true` requests removal
of the registry entry). -/
structure callback_behaviour where
  cmd_ret : Nat → List Char → Bool
  msg_ret : Nat → Bool

/-- A record of one callback invocation (which handler ran, and the payload
it received, if its shape takes one). -/
inductive invocation where
  | cmdCall (id : Nat) (payload : List Char)
  | msgCall (id : Nat)
  deriving DecidableEq, Repr

/-- First loop of `handle_unsolicited_cmd`: scan the extended-command
handlers in order; on the first match strip the prefix, invoke the callback
and, when it returns true, drop the entry.  Returns `none` when no entry
matches. -/
def dispatch_cmd_handlers (tbl : at_cmd_table) (beh : callback_behaviour)
    (response : List Char) :
    List at_unsolicited_cmd_record →
      Option (List at_unsolicited_cmd_record × invocation)
  | [] => none
  | rec :: rest =>
    if is_response_to_specific_extended_command tbl response rec.command then
      let stripped := remove_prefix_from_response response
        (calc_prefix_len_in_response_on_extended_cmd tbl response rec.command)
      some (if beh.cmd_ret rec.id stripped then rest else rec :: rest,
            .cmdCall rec.id stripped)
    else
      (dispatch_cmd_handlers tbl beh response rest).map
        (fun p => (rec :: p.1, p.2))

/-- Second loop of `handle_unsolicited_cmd`: scan the bare-message handlers. -/
def dispatch_msg_handlers (msg_tbl : List (List Char)) (beh : callback_behaviour)
    (response : List Char) :
    List at_unsolicited_msg_record →
      Option (List at_unsolicited_msg_record × invocation)
  | [] => none
  | rec :: rest =>
    if is_specific_unsolicited_msg msg_tbl response rec.message then
      some (if beh.msg_ret rec.id then rest else rec :: rest, .msgCall rec.id)
    else
      (dispatch_msg_handlers msg_tbl beh response rest).map
        (fun p => (rec :: p.1, p.2))

/-- `at_cmd_handler::handle_unsolicited_cmd(response)`: extended-command
handlers first; the bare-message handlers are consulted only when no
extended-command handler matched. -/
def handle_unsolicited_cmd (tbl : at_cmd_table) (msg_tbl : List (List Char))
    (beh : callback_behaviour) (st : at_cmd_handler_state)
    (response : List Char) : at_cmd_handler_state × List invocation :=
  match dispatch_cmd_handlers tbl beh response st.unsolicited_cmd_handlers with
  | some (l, inv) => ({ st with unsolicited_cmd_handlers := l }, [inv])
  | none =>
    match dispatch_msg_handlers msg_tbl beh response st.unsolicited_msg_handlers with
    | some (l, inv) => ({ st with unsolicited_msg_handlers := l }, [inv])
    | none => (st, [])

/-- `at_cmd_handler::handle_received_response(response, awaited_command,
response_payload)`.  Returns the classification, the updated accumulator,
the updated registries, and the callback invocations that occurred. -/
def handle_received_response (tbl : at_cmd_table) (msg_tbl : List (List Char))
    (beh : callback_behaviour) (st : at_cmd_handler_state)
    (response : List Char) (awaited_command : Option Nat)
    (response_payload : List Char) :
    at_err × List Char × at_cmd_handler_state × List invocation :=
  match awaited_command with
  | none =>
    let (st2, invs) := handle_unsolicited_cmd tbl msg_tbl beh st response
    (.unknown, response_payload, st2, invs)
  | some awaited =>
    if is_echo response then (.unknown, response_payload, st, [])
    else
      match response_to_at_err tbl response awaited with
      | .cme_error =>
        let rest := remove_prefix_from_response response cme_error_str.length
        (.cme_error,
         append_string_and_if_nonempty_add_newline rest response_payload, st, [])
      | .handling_cmd =>
        let stripped :=
          if is_response_containing_command_name response then
            remove_prefix_from_response response
              (calc_prefix_len_in_response_on_extended_cmd tbl response awaited)
          else response
        (.handling_cmd,
         append_string_and_if_nonempty_add_newline stripped response_payload,
         st, [])
      | .unknown =>
        let (st2, invs) := handle_unsolicited_cmd tbl msg_tbl beh st response
        (.unknown, response_payload, st2, invs)
      | e => (e, response_payload, st, [])

/-- Classification of a line as the RX path sees it: the echo test runs
before `response_to_at_err` (`handle_received_response`, lines 104-107). -/
def line_class (tbl : at_cmd_table) (response : List Char) (awaited : Nat) : at_err :=
  if is_echo response then .unknown else response_to_at_err tbl response awaited

/-- One step of the RX consumer run: feed a line into
`handle_received_response` against a fixed awaited command, threading the
accumulator and the registries and collecting invocations. -/
def run_step (tbl : at_cmd_table) (msg_tbl : List (List Char))
    (beh : callback_behaviour) (awaited : Option Nat)
    (acc : at_err × List Char × at_cmd_handler_state × List invocation)
    (response : List Char) :
    at_err × List Char × at_cmd_handler_state × List invocation :=
  let (e, p, st, inv) :=
    handle_received_response tbl msg_tbl beh acc.2.2.1 response awaited acc.2.1
  (e, p, st, acc.2.2.2 ++ inv)

/-- Feed a list of lines to the RX consumer in order. -/
def run_lines (tbl : at_cmd_table) (msg_tbl : List (List Char))
    (beh : callback_behaviour) (awaited : Option Nat)
    (st : at_cmd_handler_state) (lines : List (List Char)) :
    at_err × List Char × at_cmd_handler_state × List invocation :=
  lines.foldl (run_step tbl msg_tbl beh awaited) (.unknown, [], st, [])

/-- The stripped form of a data line for the awaited command: a `+`-prefixed
line loses its computed prefix, any other line is kept verbatim. -/
def stripped_line (tbl : at_cmd_table) (awaited : Nat) (response : List Char) :
    List Char :=
  if is_response_containing_command_name response then
    remove_prefix_from_response response
      (calc_prefix_len_in_response_on_extended_cmd tbl response awaited)
  else response

/-- CR-LF join as the spec words it: CR-LF between segments, never at the
start or the end. -/
def crlf_join : List (List Char) → List Char
  | [] => []
  | [s] => s
  | s :: rest => s ++ crlf ++ crlf_join rest

/-- The sample command table of the repository's test configuration:
ten extended commands `FIRST` … `TENTH`, no non-extended ones besides the
bare `AT` at index 0. -/
def sample_table : at_cmd_table where
  names := ["", "FIRST", "SECOND", "THIRD", "FOURTH", "FIFTH", "SIXTH",
            "SEVENTH", "EIGHTH", "NINTH", "TENTH"].map String.toList
  not_extended_num := 0

/-- The sample unsolicited-message table of the tests. -/
def sample_msg_table : List (List Char) := ["Neul".toList]

/-- A sample callback behaviour: every extended-command callback requests
removal, every bare-message callback requests to be kept. -/
def sample_behaviour : callback_behaviour where
  cmd_ret := fun _ _ => true
  msg_ret := fun _ => false

end ATCH

namespace ATCH

/-! ### Support lemmas for the accumulator join rule -/

/-- The accumulator step, accumulator first (as `List.foldl` wants it). -/
def join_step (dst src : List Char) : List Char :=
  append_string_and_if_nonempty_add_newline src dst

theorem foldl_join_step_of_ne_nil (segs : List (List Char)) :
    ∀ d : List Char, d ≠ [] →
      List.foldl join_step d segs = d ++ (segs.map (fun s => crlf ++ s)).flatten := by
  induction segs with
  | nil => intro d _; simp
  | cons s rest ih =>
    intro d hd
    have hstep : join_step d s = d ++ (crlf ++ s) := by
      simp [join_step, append_string_and_if_nonempty_add_newline, hd]
    have hne : d ++ (crlf ++ s) ≠ [] := by simp [hd]
    simp only [List.foldl_cons, hstep, ih _ hne, List.map_cons, List.flatten_cons,
      List.append_assoc]

theorem crlf_join_cons (rest : List (List Char)) :
    ∀ s : List Char, crlf_join (s :: rest) = s ++ (rest.map (fun r => crlf ++ r)).flatten := by
  induction rest with
  | nil => intro s; simp [crlf_join]
  | cons r rest ih =>
    intro s
    show s ++ crlf ++ crlf_join (r :: rest) = _
    simp [ih r, List.append_assoc]

theorem foldl_join_step_nil (segs : List (List Char)) :
    List.foldl join_step [] segs = crlf_join (segs.dropWhile (fun s => s.isEmpty)) := by
  induction segs with
  | nil => simp [crlf_join]
  | cons s rest ih =>
    by_cases hs : s = []
    · subst hs
      simpa [join_step, append_string_and_if_nonempty_add_newline] using ih
    · have hstep : join_step [] s = s := by
        simp [join_step, append_string_and_if_nonempty_add_newline]
      have hempty : s.isEmpty = false := by
        cases s with
        | nil => exact absurd rfl hs
        | cons a l => rfl
      simp only [List.foldl_cons, hstep, List.dropWhile_cons, hempty, Bool.false_eq_true,
        if_false, crlf_join_cons]
      exact foldl_join_step_of_ne_nil rest s hs

/-! ### Behaviour of the RX consumer on data lines -/

theorem handle_data_line (tbl : at_cmd_table) (msg_tbl : List (List Char))
    (beh : callback_behaviour) (st : at_cmd_handler_state)
    (l : List Char) (c : Nat) (p : List Char)
    (h : line_class tbl l c = .handling_cmd) :
    handle_received_response tbl msg_tbl beh st l (some c) p =
      (.handling_cmd,
       append_string_and_if_nonempty_add_newline (stripped_line tbl c l) p, st, []) := by
  unfold line_class at h
  by_cases he : is_echo l = true
  · rw [if_pos he] at h; exact absurd h (by simp)
  · rw [if_neg he] at h
    simp only [handle_received_response, he, Bool.false_eq_true, if_false, h, stripped_line]

theorem run_data_lines (tbl : at_cmd_table) (msg_tbl : List (List Char))
    (beh : callback_behaviour) (c : Nat) (lines : List (List Char)) :
    ∀ (e0 : at_err) (p : List Char) (st : at_cmd_handler_state) (invs : List invocation),
      (∀ l ∈ lines, line_class tbl l c = .handling_cmd) →
      List.foldl (run_step tbl msg_tbl beh (some c)) (e0, p, st, invs) lines =
        (lines.foldl (fun _ _ => at_err.handling_cmd) e0,
         List.foldl join_step p (lines.map (stripped_line tbl c)), st, invs) := by
  induction lines with
  | nil => intro e0 p st invs _; rfl
  | cons l rest ih =>
    intro e0 p st invs hall
    have hl : line_class tbl l c = .handling_cmd := hall l (by simp)
    have hstep :
        run_step tbl msg_tbl beh (some c) (e0, p, st, invs) l =
          (.handling_cmd,
           append_string_and_if_nonempty_add_newline (stripped_line tbl c l) p, st, invs) := by
      simp [run_step, handle_data_line tbl msg_tbl beh st l c p hl]
    simp only [List.foldl_cons, hstep,
      ih _ _ _ _ (fun x hx => hall x (by simp [hx])), List.map_cons]
    rfl

end ATCH

namespace ATCH

theorem is_echo_plus (t : List Char) : is_echo ('+' :: t) = false := by
  show List.isPrefixOf ['A', 'T'] ('+' :: t) = false
  simp [List.isPrefixOf]

theorem handle_terminal_ok (tbl : at_cmd_table) (msg_tbl : List (List Char))
    (beh : callback_behaviour) (st : at_cmd_handler_state) (c : Nat) (p : List Char) :
    handle_received_response tbl msg_tbl beh st "OK".toList (some c) p = (.ok, p, st, []) := by
  simp [handle_received_response, response_to_at_err]
  decide

theorem handle_terminal_error (tbl : at_cmd_table) (msg_tbl : List (List Char))
    (beh : callback_behaviour) (st : at_cmd_handler_state) (c : Nat) (p : List Char) :
    handle_received_response tbl msg_tbl beh st "ERROR".toList (some c) p =
      (.error, p, st, []) := by
  simp [handle_received_response, response_to_at_err]
  decide

theorem cme_shape (T : List Char) (h : string_starts_with T cme_error_str = true) :
    ∃ t, T = '+' :: ("CME ERROR".toList ++ t) := by
  have hp : cme_error_str <+: T := by
    have := (List.isPrefixOf_iff_prefix).1 h
    exact this
  obtain ⟨t, ht⟩ := hp
  exact ⟨t, by rw [← ht]; rfl⟩

theorem handle_terminal_cme (tbl : at_cmd_table) (msg_tbl : List (List Char))
    (beh : callback_behaviour) (st : at_cmd_handler_state) (c : Nat) (p : List Char)
    (T : List Char) (h : string_starts_with T cme_error_str = true) :
    handle_received_response tbl msg_tbl beh st T (some c) p =
      (.cme_error,
       append_string_and_if_nonempty_add_newline
         (T.drop cme_error_str.length) p, st, []) := by
  obtain ⟨t, rfl⟩ := cme_shape T h
  have hech : is_echo ('+' :: ("CME ERROR".toList ++ t)) = false := is_echo_plus _
  have hok : ('+' :: ("CME ERROR".toList ++ t)) ≠ "OK".toList := by
    intro hc
    exact absurd (List.head_eq_of_cons_eq hc) (by decide)
  have herr : ('+' :: ("CME ERROR".toList ++ t)) ≠ "ERROR".toList := by
    intro hc
    exact absurd (List.head_eq_of_cons_eq hc) (by decide)
  have hgt : ('+' :: ("CME ERROR".toList ++ t)) ≠ ">".toList := by
    intro hc
    exact absurd (List.head_eq_of_cons_eq hc) (by decide)
  simp only [handle_received_response, hech, Bool.false_eq_true, if_false,
    response_to_at_err, hok, herr, hgt, h, if_true, remove_prefix_from_response]

/--
C1 (amended).  For a command in flight, when the peripheral emits data
lines `L1 … Lk` (each classified `DATA_FOR_AWAITED`) followed by a terminal
line, the payload delivered to the caller is the CR-LF join of the stripped
segments `L1' … Lk'` *after dropping leading empty stripped segments*
(the join rule assigns into an empty accumulator, so empty segments at the
front leave no CR-LF trace), where a `+CME ERROR` terminal contributes its
own stripped remainder as an additional final segment; for an `OK`/`ERROR`
terminal with no empty leading segment this is exactly
`L1' CR-LF … CR-LF Lk'`, and the empty string when `k = 0`.
-/
theorem payload_completeness (tbl : at_cmd_table) (msg_tbl : List (List Char))
    (beh : callback_behaviour) (st : at_cmd_handler_state) (c : Nat)
    (lines : List (List Char)) (T : List Char)
    (hdata : ∀ l ∈ lines, line_class tbl l c = .handling_cmd)
    (hterm : T = "OK".toList ∨ T = "ERROR".toList ∨
      string_starts_with T cme_error_str = true) :
    run_lines tbl msg_tbl beh (some c) st (lines ++ [T]) =
      ((if T = "OK".toList then .ok else if T = "ERROR".toList then .error
        else .cme_error),
       crlf_join
         ((lines.map (stripped_line tbl c) ++
            (if string_starts_with T cme_error_str = true then
              [T.drop cme_error_str.length] else [])).dropWhile
           (fun s => s.isEmpty)),
       st, []) := by
  unfold run_lines
  rw [List.foldl_append,
    run_data_lines tbl msg_tbl beh c lines .unknown [] st [] hdata]
  rcases hterm with h | h | h
  · subst h
    have hcme : string_starts_with "OK".toList cme_error_str = false := by decide
    simp only [List.foldl_cons, List.foldl_nil, run_step,
      handle_terminal_ok tbl msg_tbl beh st c, hcme, Bool.false_eq_true, if_false,
      List.append_nil, List.nil_append, if_true, foldl_join_step_nil]
  · subst h
    have hcme : string_starts_with "ERROR".toList cme_error_str = false := by decide
    have hok : "ERROR".toList ≠ "OK".toList := by decide
    simp only [List.foldl_cons, List.foldl_nil, run_step,
      handle_terminal_error tbl msg_tbl beh st c, hcme, Bool.false_eq_true, if_false,
      List.append_nil, List.nil_append, hok, if_true, foldl_join_step_nil]
  · obtain ⟨t, rfl⟩ := cme_shape T h
    have hok : ('+' :: ("CME ERROR".toList ++ t)) ≠ "OK".toList := by
      intro hc; exact absurd (List.head_eq_of_cons_eq hc) (by decide)
    have herr : ('+' :: ("CME ERROR".toList ++ t)) ≠ "ERROR".toList := by
      intro hc; exact absurd (List.head_eq_of_cons_eq hc) (by decide)
    have happ :
        append_string_and_if_nonempty_add_newline
            ((('+' :: ("CME ERROR".toList ++ t))).drop cme_error_str.length)
            (List.foldl join_step [] (lines.map (stripped_line tbl c))) =
          List.foldl join_step []
            (lines.map (stripped_line tbl c) ++
              [(('+' :: ("CME ERROR".toList ++ t))).drop cme_error_str.length]) := by
      rw [List.foldl_append]; rfl
    simp only [List.foldl_cons, List.foldl_nil, run_step,
      handle_terminal_cme tbl msg_tbl beh st c _ _ h, hok, herr, h,
      Bool.false_eq_true, if_false, if_true, List.append_nil, happ]
    rw [foldl_join_step_nil]

/-- Witness for C1 at the S2-style scenario: awaiting `SIXTH`, two prefixed
data lines and `OK` deliver `A\r\nB`. -/
theorem payload_completeness_witness :
    line_class sample_table "+SIXTH: A".toList 6 = .handling_cmd ∧
    line_class sample_table "+SIXTH: B".toList 6 = .handling_cmd ∧
    run_lines sample_table sample_msg_table sample_behaviour (some 6) ⟨[], []⟩
        (["+SIXTH: A".toList, "+SIXTH: B".toList] ++ ["OK".toList]) =
      (.ok, "A\r\nB".toList, ⟨[], []⟩, []) := by
  refine ⟨by decide, by decide, ?_⟩
  rw [payload_completeness sample_table sample_msg_table sample_behaviour ⟨[], []⟩ 6
    ["+SIXTH: A".toList, "+SIXTH: B".toList] "OK".toList (by decide) (Or.inl rfl)]
  decide

/-- Counterexample to C1 as stated: awaiting `SIXTH`, the data lines
`+SIXTH:` (stripped segment empty) and `ABC` followed by `OK` deliver
`ABC`, not the claimed `L1' CR-LF L2' = \r\nABC`: the join rule loses the
separator in front of a leading empty segment. -/
theorem payload_completeness_cex :
    line_class sample_table "+SIXTH:".toList 6 = .handling_cmd ∧
    line_class sample_table "ABC".toList 6 = .handling_cmd ∧
    stripped_line sample_table 6 "+SIXTH:".toList = [] ∧
    stripped_line sample_table 6 "ABC".toList = "ABC".toList ∧
    (run_lines sample_table sample_msg_table sample_behaviour (some 6) ⟨[], []⟩
        (["+SIXTH:".toList, "ABC".toList] ++ ["OK".toList])).2.1 = "ABC".toList ∧
    "ABC".toList ≠ crlf_join [[], "ABC".toList] := by
  decide

end ATCH

namespace ATCH

/--
C4 (amended).  A line starting with `AT` is classified `ECHO` and has no
side effects *when a command is awaited*: the accumulator, the registries
and the invocation log are untouched and the classification is the internal
`unknown`, so the echo contributes nothing to the payload.  When the
awaited-command field is `NONE`, however, `handle_received_response` hands
every line - `AT`-prefixed ones included - to the unsolicited dispatcher
before the echo test is reached, so such a line can invoke handlers.
-/
theorem echo_suppression (tbl : at_cmd_table) (msg_tbl : List (List Char))
    (beh : callback_behaviour) (st : at_cmd_handler_state)
    (r p : List Char) (c : Nat) (h : is_echo r = true) :
    handle_received_response tbl msg_tbl beh st r (some c) p = (.unknown, p, st, []) ∧
    (handle_received_response tbl msg_tbl beh st r none p).1 = .unknown ∧
    (handle_received_response tbl msg_tbl beh st r none p).2.1 = p ∧
    (handle_received_response tbl msg_tbl beh st r none p).2.2 =
      handle_unsolicited_cmd tbl msg_tbl beh st r := by
  refine ⟨by simp [handle_received_response, h], ?_, ?_, ?_⟩ <;>
    simp [handle_received_response]

/-- Witness for C4 on the S4 echo line with a command awaited. -/
theorem echo_suppression_witness :
    is_echo "AT+FOURTH=MEXICO".toList = true ∧
    handle_received_response sample_table sample_msg_table sample_behaviour
        ⟨[⟨1, 1⟩], [⟨2, 0⟩]⟩ "AT+FOURTH=MEXICO".toList (some 4) "X".toList =
      (.unknown, "X".toList, ⟨[⟨1, 1⟩], [⟨2, 0⟩]⟩, []) :=
  ⟨by decide,
   (echo_suppression sample_table sample_msg_table sample_behaviour
      ⟨[⟨1, 1⟩], [⟨2, 0⟩]⟩ "AT+FOURTH=MEXICO".toList "X".toList 4 (by decide)).1⟩

/-- Counterexample to C4 as stated: with the awaited command `NONE` and a
handler registered for `THIRD`, the `AT`-prefixed line `ATHIRD:x` is
dispatched as unsolicited, the callback fires (with payload `x`) and the
registry changes - contradicting "no handler callback is invoked" for
"every value of the awaited-command field (including NONE)". -/
theorem echo_suppression_cex :
    is_echo "ATHIRD:x".toList = true ∧
    (handle_received_response sample_table sample_msg_table sample_behaviour
        ⟨[⟨7, 3⟩], []⟩ "ATHIRD:x".toList none []).2.2.2 =
      [.cmdCall 7 "x".toList] ∧
    (handle_received_response sample_table sample_msg_table sample_behaviour
        ⟨[⟨7, 3⟩], []⟩ "ATHIRD:x".toList none []).2.2.1 ≠ ⟨[⟨7, 3⟩], []⟩ := by
  decide

theorem response_to_at_err_plus (tbl : at_cmd_table) (c : Nat) (t : List Char)
    (hext : is_extended_at_cmd tbl c = true)
    (hcme : string_starts_with ('+' :: t) cme_error_str = false) :
    response_to_at_err tbl ('+' :: t) c =
      (if string_starts_with t (cmd_name tbl c) then .handling_cmd else .unknown) := by
  have hok : ('+' :: t) ≠ "OK".toList := by
    intro hc; exact absurd (List.head_eq_of_cons_eq hc) (by decide)
  have herr : ('+' :: t) ≠ "ERROR".toList := by
    intro hc; exact absurd (List.head_eq_of_cons_eq hc) (by decide)
  have hgt : ('+' :: t) ≠ ">".toList := by
    intro hc; exact absurd (List.head_eq_of_cons_eq hc) (by decide)
  simp only [response_to_at_err, hok, herr, hgt, hcme, Bool.false_eq_true,
    if_false, is_response_to_command, hext, is_response_containing_command_name,
    is_response_to_specific_extended_command, List.headD_cons, List.drop_succ_cons,
    List.drop_zero]
  simp

/--
C5 (amended).  With an extended command awaited, a non-terminal, non-echo,
non-prompt, non-CME line beginning with `+` is classified
`DATA_FOR_AWAITED` exactly when the characters after the `+` *begin with*
the awaited command's name - no colon is required after the name.  In that
case the bytes stripped are `+`, the name, the single following character
(whatever it is), and at most one space after that; the remainder is
appended to the accumulator.  Any other `+`-prefixed line is classified
`UNSOLICITED` (internal `unknown`).
-/
theorem extended_data_line_classification (tbl : at_cmd_table) (c : Nat)
    (t : List Char) (hext : is_extended_at_cmd tbl c = true)
    (hcme : string_starts_with ('+' :: t) cme_error_str = false) :
    (response_to_at_err tbl ('+' :: t) c = .handling_cmd ↔
      string_starts_with t (cmd_name tbl c) = true) ∧
    (string_starts_with t (cmd_name tbl c) = false →
      response_to_at_err tbl ('+' :: t) c = .unknown) ∧
    (∀ (msg_tbl : List (List Char)) (beh : callback_behaviour)
        (st : at_cmd_handler_state) (p : List Char),
      string_starts_with t (cmd_name tbl c) = true →
      handle_received_response tbl msg_tbl beh st ('+' :: t) (some c) p =
        (.handling_cmd,
         append_string_and_if_nonempty_add_newline
           (('+' :: t).drop
             (calc_prefix_len_in_response_on_extended_cmd tbl ('+' :: t) c)) p,
         st, [])) := by
  have hbase := response_to_at_err_plus tbl c t hext hcme
  refine ⟨?_, ?_, ?_⟩
  · rw [hbase]
    by_cases hm : string_starts_with t (cmd_name tbl c) = true <;> simp [hm]
  · intro hm; rw [hbase, hm]; rfl
  · intro msg_tbl beh st p hm
    have hclass : line_class tbl ('+' :: t) c = .handling_cmd := by
      simp [line_class, is_echo_plus, hbase, hm]
    rw [handle_data_line tbl msg_tbl beh st ('+' :: t) c p hclass]
    simp [stripped_line, is_response_containing_command_name,
      remove_prefix_from_response]

/-- Witness for C5: awaiting `NINTH`, the line `+NINTH:MAKARENA` is
classified as data for the awaited command. -/
theorem extended_data_line_classification_witness :
    is_extended_at_cmd sample_table 9 = true ∧
    string_starts_with ('+' :: "NINTH:MAKARENA".toList) cme_error_str = false ∧
    response_to_at_err sample_table ('+' :: "NINTH:MAKARENA".toList) 9 =
      .handling_cmd :=
  ⟨by decide, by decide,
   ((extended_data_line_classification sample_table 9 "NINTH:MAKARENA".toList
      (by decide) (by decide)).1).mpr (by decide)⟩

/-- Counterexample to C5 as stated: awaiting `SIXTH`, the line `+SIXTHS`
is classified `DATA_FOR_AWAITED` although the characters after the `+`
are not the name followed by `:` - the code never checks the colon. -/
theorem extended_data_line_classification_cex :
    is_extended_at_cmd sample_table 6 = true ∧
    response_to_at_err sample_table "+SIXTHS".toList 6 = .handling_cmd ∧
    string_starts_with "SIXTHS".toList (cmd_name sample_table 6 ++ [':']) =
      false := by
  decide

end ATCH

namespace ATCH

/-- The payload handed to a matching extended-command handler. -/
def unsol_stripped (tbl : at_cmd_table) (r : List Char)
    (rec : at_unsolicited_cmd_record) : List Char :=
  remove_prefix_from_response r
    (calc_prefix_len_in_response_on_extended_cmd tbl r rec.command)

theorem dispatch_cmd_handlers_spec (tbl : at_cmd_table) (beh : callback_behaviour)
    (r : List Char) :
    ∀ (l : List at_unsolicited_cmd_record) (rec : at_unsolicited_cmd_record)
      (rest : List at_unsolicited_cmd_record),
      l.dropWhile
          (fun k => ! is_response_to_specific_extended_command tbl r k.command) =
        rec :: rest →
      dispatch_cmd_handlers tbl beh r l =
        some
          ((if beh.cmd_ret rec.id (unsol_stripped tbl r rec) then
              l.takeWhile
                  (fun k => ! is_response_to_specific_extended_command tbl r k.command) ++
                rest
            else l),
           .cmdCall rec.id (unsol_stripped tbl r rec)) := by
  intro l
  induction l with
  | nil => intro rec rest h; exact absurd h (by simp)
  | cons k ks ih =>
    intro rec rest h
    cases hm : is_response_to_specific_extended_command tbl r k.command with
    | true =>
      have hck : (k :: ks) = rec :: rest := by
        simpa [List.dropWhile_cons, hm] using h
      obtain ⟨rfl, rfl⟩ : k = rec ∧ ks = rest :=
        ⟨by injection hck, by injection hck⟩
      have ht : List.takeWhile
          (fun k => ! is_response_to_specific_extended_command tbl r k.command)
          (k :: ks) = [] := by
        simp [List.takeWhile_cons, hm]
      simp only [dispatch_cmd_handlers, hm, if_true, ht, List.nil_append]
      rfl
    | false =>
      have h2 : List.dropWhile
          (fun k => ! is_response_to_specific_extended_command tbl r k.command) ks =
          rec :: rest := by
        simpa [List.dropWhile_cons, hm] using h
      have ht : List.takeWhile
          (fun k => ! is_response_to_specific_extended_command tbl r k.command)
          (k :: ks) =
          k :: List.takeWhile
            (fun k => ! is_response_to_specific_extended_command tbl r k.command) ks := by
        simp [List.takeWhile_cons, hm]
      simp only [dispatch_cmd_handlers, hm, Bool.false_eq_true, if_false,
        ih rec rest h2, Option.map_some, ht]
      by_cases hb : beh.cmd_ret rec.id (unsol_stripped tbl r rec) = true <;>
        simp [hb]

theorem dispatch_cmd_handlers_none (tbl : at_cmd_table) (beh : callback_behaviour)
    (r : List Char) :
    ∀ l : List at_unsolicited_cmd_record,
      l.dropWhile
          (fun k => ! is_response_to_specific_extended_command tbl r k.command) = [] →
      dispatch_cmd_handlers tbl beh r l = none := by
  intro l
  induction l with
  | nil => intro _; rfl
  | cons k ks ih =>
    intro h
    cases hm : is_response_to_specific_extended_command tbl r k.command with
    | true =>
      simp [List.dropWhile_cons, hm] at h
    | false =>
      have h2 : List.dropWhile
          (fun k => ! is_response_to_specific_extended_command tbl r k.command) ks =
          [] := by
        simpa [List.dropWhile_cons, hm] using h
      simp only [dispatch_cmd_handlers, hm, Bool.false_eq_true, if_false, ih h2]
      rfl

theorem dispatch_msg_handlers_spec (msg_tbl : List (List Char))
    (beh : callback_behaviour) (r : List Char) :
    ∀ (l : List at_unsolicited_msg_record) (m : at_unsolicited_msg_record)
      (mrest : List at_unsolicited_msg_record),
      l.dropWhile (fun k => ! is_specific_unsolicited_msg msg_tbl r k.message) =
        m :: mrest →
      dispatch_msg_handlers msg_tbl beh r l =
        some
          ((if beh.msg_ret m.id then
              l.takeWhile (fun k => ! is_specific_unsolicited_msg msg_tbl r k.message) ++
                mrest
            else l),
           .msgCall m.id) := by
  intro l
  induction l with
  | nil => intro m mrest h; exact absurd h (by simp)
  | cons k ks ih =>
    intro m mrest h
    cases hm : is_specific_unsolicited_msg msg_tbl r k.message with
    | true =>
      have hck : (k :: ks) = m :: mrest := by
        simpa [List.dropWhile_cons, hm] using h
      obtain ⟨rfl, rfl⟩ : k = m ∧ ks = mrest :=
        ⟨by injection hck, by injection hck⟩
      have ht : List.takeWhile
          (fun k => ! is_specific_unsolicited_msg msg_tbl r k.message) (k :: ks) = [] := by
        simp [List.takeWhile_cons, hm]
      simp only [dispatch_msg_handlers, hm, if_true, ht, List.nil_append]
    | false =>
      have h2 : List.dropWhile
          (fun k => ! is_specific_unsolicited_msg msg_tbl r k.message) ks =
          m :: mrest := by
        simpa [List.dropWhile_cons, hm] using h
      have ht : List.takeWhile
          (fun k => ! is_specific_unsolicited_msg msg_tbl r k.message) (k :: ks) =
          k :: List.takeWhile
            (fun k => ! is_specific_unsolicited_msg msg_tbl r k.message) ks := by
        simp [List.takeWhile_cons, hm]
      simp only [dispatch_msg_handlers, hm, Bool.false_eq_true, if_false,
        ih m mrest h2, Option.map_some, ht]
      by_cases hb : beh.msg_ret m.id = true <;> simp [hb]

/--
C8.  For a line dispatched as unsolicited, exactly one callback is invoked:
the earliest-registered matching extended-command handler when one matches
(it receives the line with the computed `+<name>:`-with-optional-space
prefix stripped); otherwise the earliest-registered matching bare-message
handler (no payload).  A callback returning REMOVE has its entry deleted
from the registry the dispatcher returns (what the next line sees), while
KEEP leaves the registries unchanged; the other registry is untouched.
-/
theorem unsolicited_dispatch_order (tbl : at_cmd_table)
    (msg_tbl : List (List Char)) (beh : callback_behaviour)
    (st : at_cmd_handler_state) (r : List Char) :
    (∀ rec rest,
      st.unsolicited_cmd_handlers.dropWhile
          (fun k => ! is_response_to_specific_extended_command tbl r k.command) =
        rec :: rest →
      handle_unsolicited_cmd tbl msg_tbl beh st r =
        (⟨(if beh.cmd_ret rec.id (unsol_stripped tbl r rec) then
            st.unsolicited_cmd_handlers.takeWhile
                (fun k => ! is_response_to_specific_extended_command tbl r k.command) ++
              rest
           else st.unsolicited_cmd_handlers),
          st.unsolicited_msg_handlers⟩,
         [.cmdCall rec.id (unsol_stripped tbl r rec)])) ∧
    (st.unsolicited_cmd_handlers.dropWhile
        (fun k => ! is_response_to_specific_extended_command tbl r k.command) = [] →
     ∀ m mrest,
      st.unsolicited_msg_handlers.dropWhile
          (fun k => ! is_specific_unsolicited_msg msg_tbl r k.message) =
        m :: mrest →
      handle_unsolicited_cmd tbl msg_tbl beh st r =
        (⟨st.unsolicited_cmd_handlers,
          (if beh.msg_ret m.id then
            st.unsolicited_msg_handlers.takeWhile
                (fun k => ! is_specific_unsolicited_msg msg_tbl r k.message) ++
              mrest
           else st.unsolicited_msg_handlers)⟩,
         [.msgCall m.id])) := by
  constructor
  · intro rec rest h
    rw [handle_unsolicited_cmd, dispatch_cmd_handlers_spec tbl beh r _ rec rest h]
  · intro hnone m mrest h
    rw [handle_unsolicited_cmd, dispatch_cmd_handlers_none tbl beh r _ hnone,
      dispatch_msg_handlers_spec msg_tbl beh r _ m mrest h]

/-- Witness for C8: the line `+SIXTH: Z` matches the second and third of
three registered extended-command handlers; only the earliest match (id 2)
runs, it returns REMOVE, and only its entry disappears. -/
theorem unsolicited_dispatch_order_witness :
    handle_unsolicited_cmd sample_table sample_msg_table sample_behaviour
        ⟨[⟨1, 3⟩, ⟨2, 6⟩, ⟨3, 6⟩], [⟨9, 0⟩]⟩ "+SIXTH: Z".toList =
      (⟨[⟨1, 3⟩, ⟨3, 6⟩], [⟨9, 0⟩]⟩, [.cmdCall 2 "Z".toList]) := by
  have h := (unsolicited_dispatch_order sample_table sample_msg_table
    sample_behaviour ⟨[⟨1, 3⟩, ⟨2, 6⟩, ⟨3, 6⟩], [⟨9, 0⟩]⟩ "+SIXTH: Z".toList).1
    ⟨2, 6⟩ [⟨3, 6⟩] (by decide)
  rw [h]
  decide

end ATCH

namespace ATCH

/-! ### Prompt dialogue (`at_cmd.cpp`) -/

/-- `at_prompt_end_policy`. -/
inductive at_prompt_end_policy where
  | ctrl_z
  | crlf
  deriving DecidableEq, Repr

/-- `CTRL_Z_STR`, the single byte 0x1A. -/
def ctrl_z_str : List Char := [Char.ofNat 0x1A]

/-- `at_prompt_msg_struct`. -/
structure at_prompt_msg_struct where
  policy : at_prompt_end_policy
  prompt_message : List Char
  valid : Bool
  deriving DecidableEq, Repr

/-- `at_prompt_msg_struct::set` (performed by `at_send_prompted` before the
primary frame goes out). -/
def at_prompt_msg_struct.set (_pd : at_prompt_msg_struct)
    (prompt_end_policy : at_prompt_end_policy) (message : List Char) :
    at_prompt_msg_struct :=
  { policy := prompt_end_policy, prompt_message := message, valid := true }

/-- The two-argument `transmit_command(prefix, payload)`: the strings pushed
to the TX byte source, in order. The third push of `"\r\n"` is
unconditional. -/
def transmit_command_pushes (pfx payload : List Char) : List (List Char) :=
  [pfx, payload, crlf]

/-- `handle_prompt_request()`: returns the strings pushed to the TX byte
source and the updated prompt store. -/
def handle_prompt_request (pd : at_prompt_msg_struct) :
    List (List Char) × at_prompt_msg_struct :=
  if ¬ pd.valid then ([], pd)
  else
    let suffix :=
      match pd.policy with
      | .ctrl_z => ctrl_z_str ++ crlf
      | .crlf => crlf
    (transmit_command_pushes pd.prompt_message suffix, { pd with valid := false })

/--
C2 (code bug).  On a PROMPT line with a valid stored prompt, the driver is
specified (spec sections 3, 4.6, 6) to transmit the prompt message followed
by CTRL-Z CR-LF (policy CTRL_Z) or CR-LF alone (policy CRLF) and nothing
more.  `handle_prompt_request` builds exactly that suffix, but then sends
it through the two-argument `transmit_command`, which unconditionally
appends another CR-LF - so one extra CR-LF goes out.  The
mark-as-consumed part of the claim does hold: after the first prompt the
store is invalid and a second PROMPT line transmits nothing.  The theorem
evaluates the code at the failing input (policy CTRL_Z, message `msg`).
-/
theorem prompt_transmission_extra_crlf :
    (handle_prompt_request ⟨.ctrl_z, "msg".toList, true⟩).1 =
      ["msg".toList, ctrl_z_str ++ crlf, crlf] ∧
    ((handle_prompt_request ⟨.ctrl_z, "msg".toList, true⟩).1).flatten ≠
      "msg".toList ++ ctrl_z_str ++ crlf ∧
    ((handle_prompt_request ⟨.ctrl_z, "msg".toList, true⟩).1).flatten =
      "msg".toList ++ ctrl_z_str ++ crlf ++ crlf ∧
    (handle_prompt_request ⟨.ctrl_z, "msg".toList, true⟩).2.valid = false ∧
    (handle_prompt_request
        ((handle_prompt_request ⟨.ctrl_z, "msg".toList, true⟩).2)).1 = [] ∧
    (handle_prompt_request ⟨.crlf, "msg".toList, true⟩).1.flatten =
      "msg".toList ++ crlf ++ crlf := by
  decide

end ATCH

namespace ATCH

/-! ### `at_send_and_get_response` and the 1-slot result queue -/

/-- `at_work_result_struct` from `at_cmd.cpp` (the command is an
`Option Nat` because the publishing side stores the awaited command, which
may be the sentinel `none`). -/
structure at_work_result_struct where
  command : Option Nat
  result : at_err
  payload : List Char
  deriving DecidableEq, Repr

/--
The `while (true)` receive loop of `at_send_and_get_response`, against a
schedule of result deliveries.  `deliveries` lists, in order, the results
the RX task publishes to `at_work_result_queue`, each with the (absolute,
nondecreasing) tick of its publication.  Each loop iteration calls
`at_work_result_queue.receive(ticks_to_wait)` - note: the full
`ticks_to_wait`, not a remaining budget - which obtains the next delivery
when it arrives no later than `now + ticks_to_wait` and otherwise times
out at `now + ticks_to_wait`.  A result whose command differs from the one
just sent is discarded and the loop re-enters `receive`.  Returns the
caller-visible error, the response payload, and the tick at which the call
returns.
-/
def at_send_and_get_response_loop (command : Option Nat) (ticks_to_wait : Nat) :
    List (Nat × at_work_result_struct) → Nat → at_err × List Char × Nat
  | [], now => (.timeout, [], now + ticks_to_wait)
  | (arrival, res) :: rest, now =>
    if arrival ≤ now + ticks_to_wait then
      if res.command = command then (res.result, res.payload, max arrival now)
      else at_send_and_get_response_loop command ticks_to_wait rest (max arrival now)
    else (.timeout, [], now + ticks_to_wait)

/--
C3 counterexample.  With budget `t = 10` starting at tick 0, a stale
result (command 2) arriving at tick 9 is discarded, and the loop then
waits a *fresh* full budget, accepting the matching result at tick 18 -
so `at_send` blocks 18 > 10 ticks on the result queue, contradicting "the
total time send blocks on the result queue never exceeds t".
-/
theorem at_send_stale_budget_cex :
    at_send_and_get_response_loop (some 1) 10
        [(9, ⟨some 2, .ok, []⟩), (18, ⟨some 1, .ok, "P".toList⟩)] 0 =
      (.ok, "P".toList, 18) ∧ 10 < 18 := by
  decide

/--
C3 (amended).  Discarded mismatches keep the loop waiting, but each
`receive` restarts with the full budget `t`: the total blocking time is
bounded by `(number of deliveries + 1) * t`, not by `t`.  A non-timeout
return carries the classification and payload of a delivered result whose
command matches, and if no delivered result matches the sent command the
loop returns TIMEOUT.
-/
theorem at_send_loop_budget (command : Option Nat) (t : Nat) :
    ∀ (ds : List (Nat × at_work_result_struct)) (now : Nat),
      (at_send_and_get_response_loop command t ds now).2.2 ≤
          now + (ds.length + 1) * t ∧
      ((at_send_and_get_response_loop command t ds now).1 ≠ .timeout →
        ∃ d ∈ ds, d.2.command = command ∧
          (at_send_and_get_response_loop command t ds now).1 = d.2.result ∧
          (at_send_and_get_response_loop command t ds now).2.1 = d.2.payload) ∧
      ((∀ d ∈ ds, d.2.command ≠ command) →
        (at_send_and_get_response_loop command t ds now).1 = .timeout) := by
  intro ds
  induction ds with
  | nil =>
    intro now
    refine ⟨by simp [at_send_and_get_response_loop], ?_, fun _ => rfl⟩
    intro h
    exact absurd rfl h
  | cons d rest ih =>
    intro now
    obtain ⟨a, r⟩ := d
    by_cases ha : a ≤ now + t
    · by_cases hc : r.command = command
      · have hl : at_send_and_get_response_loop command t ((a, r) :: rest) now =
            (r.result, r.payload, max a now) := by
          simp [at_send_and_get_response_loop, ha, hc]
        refine ⟨?_, ?_, ?_⟩
        · rw [hl]
          have h1 : max a now ≤ now + t := by omega
          have h2 : t ≤ (rest.length + 1 + 1) * t :=
            Nat.le_mul_of_pos_left t (by omega)
          calc max a now ≤ now + t := h1
            _ ≤ now + (rest.length + 1 + 1) * t := Nat.add_le_add_left h2 now
        · intro _
          exact ⟨(a, r), by simp, hc, by rw [hl], by rw [hl]⟩
        · intro hall
          exact absurd hc (hall (a, r) (by simp))
      · have hl : at_send_and_get_response_loop command t ((a, r) :: rest) now =
            at_send_and_get_response_loop command t rest (max a now) := by
          simp [at_send_and_get_response_loop, ha, hc]
        have IH := ih (max a now)
        refine ⟨?_, ?_, ?_⟩
        · rw [hl]
          have h1 : max a now ≤ now + t := by omega
          calc (at_send_and_get_response_loop command t rest (max a now)).2.2 ≤
              max a now + (rest.length + 1) * t := IH.1
            _ ≤ (now + t) + (rest.length + 1) * t := Nat.add_le_add_right h1 _
            _ = now + (rest.length + 1 + 1) * t := by ring
        · intro h
          rw [hl] at h ⊢
          obtain ⟨d, hd, h2, h3, h4⟩ := IH.2.1 h
          exact ⟨d, by simp [hd], h2, h3, h4⟩
        · intro hall
          rw [hl]
          exact IH.2.2 (fun d hd => hall d (by simp [hd]))
    · have hl : at_send_and_get_response_loop command t ((a, r) :: rest) now =
          (.timeout, [], now + t) := by
        simp [at_send_and_get_response_loop, ha]
      refine ⟨?_, ?_, ?_⟩
      · rw [hl]
        have h2 : t ≤ (rest.length + 1 + 1) * t :=
          Nat.le_mul_of_pos_left t (by omega)
        exact Nat.add_le_add_left h2 now
      · intro h
        rw [hl] at h
        exact absurd rfl h
      · intro _
        rw [hl]

/-- Witness for the amended C3: the bound holds on a two-delivery schedule,
and with only mismatched deliveries the loop returns TIMEOUT. -/
theorem at_send_loop_budget_witness :
    (at_send_and_get_response_loop (some 1) 10
        [(5, ⟨some 2, .error, []⟩), (7, ⟨some 1, .ok, "Q".toList⟩)] 0).2.2 ≤
      0 + (2 + 1) * 10 ∧
    (at_send_and_get_response_loop (some 1) 10 [(5, ⟨some 3, .ok, []⟩)] 0).1 =
      .timeout :=
  ⟨(at_send_loop_budget (some 1) 10
      [(5, ⟨some 2, .error, []⟩), (7, ⟨some 1, .ok, "Q".toList⟩)] 0).1,
   (at_send_loop_budget (some 1) 10 [(5, ⟨some 3, .ok, []⟩)] 0).2.2 (by decide)⟩

end ATCH

namespace ATCH

/-! ### `os_queue<T, 1>` (C9) -/

/-- State of `os_queue<T, 1>`: the backing `std::vector` and the current
count of the counting semaphore created by
`xSemaphoreCreateCounting(N, 0)` with `N = 1`. -/
structure os_queue_state (T : Type) where
  m_queue : List T
  sem : Nat
  deriving DecidableEq, Repr

/-- `xSemaphoreGive` on a counting semaphore with maximum count
`max_count`: giving a full semaphore fails and leaves the count unchanged
(FreeRTOS counting semaphores are fixed-length queues; `overwrite` ignores
the returned failure). -/
def sem_give (max_count sem : Nat) : Nat :=
  if sem < max_count then sem + 1 else sem

/-- `os_queue<T,1>::overwrite`: emplace when empty, replace slot 0
otherwise; then give the semaphore. -/
def os_queue_overwrite {T : Type} (st : os_queue_state T) (v : T) :
    os_queue_state T :=
  { m_queue := if st.m_queue.length = 0 then [v] else st.m_queue.set 0 v,
    sem := sem_give 1 st.sem }

/-- `os_queue::receive`: a successful semaphore take (modelled as `sem ≠ 0`;
a zero count is the timeout path) reads `m_queue[m_queue.size() - 1]` and
pops it.  The read is modelled with `get?` so that an out-of-bounds access
would surface as `none`. -/
def os_queue_receive {T : Type} (st : os_queue_state T) :
    Option T × os_queue_state T :=
  if st.sem = 0 then (none, st)
  else (st.m_queue.get? (st.m_queue.length - 1),
        { m_queue := st.m_queue.dropLast, sem := st.sem - 1 })

/-- The operations the engine performs on its two 1-slot queues. -/
inductive queue_op (T : Type) where
  | overwrite (v : T)
  | receive

/-- Run a sequence of operations from a state. -/
def os_queue_run {T : Type} : List (queue_op T) → os_queue_state T → os_queue_state T
  | [], st => st
  | .overwrite v :: rest, st => os_queue_run rest (os_queue_overwrite st v)
  | .receive :: rest, st => os_queue_run rest (os_queue_receive st).2

/-- The freshly constructed queue: empty vector, semaphore count 0. -/
def os_queue_init (T : Type) : os_queue_state T := ⟨[], 0⟩

theorem os_queue_run_inv {T : Type} :
    ∀ (ops : List (queue_op T)) (st : os_queue_state T),
      st.sem = st.m_queue.length → st.m_queue.length ≤ 1 →
      (os_queue_run ops st).sem = (os_queue_run ops st).m_queue.length ∧
        (os_queue_run ops st).m_queue.length ≤ 1 := by
  intro ops
  induction ops with
  | nil => intro st h1 h2; exact ⟨h1, h2⟩
  | cons op rest ih =>
    intro st h1 h2
    cases op with
    | overwrite v =>
      refine ih (os_queue_overwrite st v) ?_ ?_
      · by_cases hq : st.m_queue.length = 0
        · simp [os_queue_overwrite, hq, sem_give, h1]
        · have hlen : st.m_queue.length = 1 := by omega
          simp [os_queue_overwrite, hq, sem_give, h1, hlen]
      · by_cases hq : st.m_queue.length = 0
        · simp [os_queue_overwrite, hq]
        · simp [os_queue_overwrite, hq]
          omega
    | receive =>
      refine ih (os_queue_receive st).2 ?_ ?_
      · by_cases hs : st.sem = 0
        · simp [os_queue_receive, hs]
          omega
        · have hlen : st.m_queue.length = 1 := by omega
          simp [os_queue_receive, hs, h1, List.length_dropLast, hlen]
      · by_cases hs : st.sem = 0
        · simp [os_queue_receive, hs, h2]
        · simp [os_queue_receive, hs, List.length_dropLast]
          omega

/--
C9.  For the 1-slot queue, in every state reachable from the fresh queue by
overwrite and receive operations, the counting-semaphore count equals the
number of elements in the backing vector (the give performed by an
overwrite of a full slot fails against the semaphore's maximum count of 1,
keeping the two in step); consequently a receive that acquires the
semaphore finds the vector non-empty and its `size-1` access is in bounds.
-/
theorem os_queue_sem_matches_size (T : Type) (ops : List (queue_op T)) :
    (os_queue_run ops (os_queue_init T)).sem =
        (os_queue_run ops (os_queue_init T)).m_queue.length ∧
      ((os_queue_run ops (os_queue_init T)).sem ≠ 0 →
        (os_queue_run ops (os_queue_init T)).m_queue ≠ [] ∧
          ((os_queue_receive (os_queue_run ops (os_queue_init T))).1).isSome = true) := by
  obtain ⟨h1, h2⟩ := os_queue_run_inv ops (os_queue_init T) rfl (by simp [os_queue_init])
  refine ⟨h1, fun hs => ⟨?_, ?_⟩⟩
  · intro hnil
    rw [h1, hnil] at hs
    exact hs rfl
  · have hlen : (os_queue_run ops (os_queue_init T)).m_queue.length ≠ 0 := by
      rw [← h1]; exact hs
    simp only [os_queue_receive, hs, if_false]
    rw [List.get?_eq_getElem?]
    rw [List.getElem?_eq_getElem (by omega)]
    rfl

/-- Witness for C9 after a single overwrite: the semaphore count is 1 and
the pending receive finds an element. -/
theorem os_queue_sem_matches_size_witness :
    (os_queue_run [queue_op.overwrite 5] (os_queue_init Nat)).sem = 1 ∧
    ((os_queue_receive
        (os_queue_run [queue_op.overwrite 5] (os_queue_init Nat))).1).isSome = true := by
  have h := os_queue_sem_matches_size Nat [queue_op.overwrite 5]
  exact ⟨by decide, (h.2 (by decide)).2⟩

end ATCH

namespace ATCH

/-! ### TX byte source (`string_buf_tx.cpp`) -/

/-- `string_buf_tx`: the list of owned strings, the string cursor
(`m_strings_it`, an index into `m_strings`; the value `m_strings.length`
is `end()`), and the byte cursor (`m_byte_it`, `none` models the null
pointer). -/
structure string_buf_tx where
  m_strings : List (List Char)
  m_strings_it : Nat
  m_byte_it : Option Nat
  deriving DecidableEq, Repr

/-- The freshly constructed buffer (`m_strings_it = m_strings.begin()`). -/
def tx_init : string_buf_tx := ⟨[], 0, none⟩

/-- `string_buf_tx::is_empty`: `m_strings_it == m_strings.end()`. -/
def string_buf_tx.is_empty (b : string_buf_tx) : Bool :=
  b.m_strings_it = b.m_strings.length

/-- `string_buf_tx::push_string`: append; if the string list was empty the
cursor is set to `begin()`, and if the cursor was at `end()` it is moved to
the newly appended (last) string.  `std::list` iterators stay valid across
`emplace_back`, so indices are unchanged otherwise. -/
def string_buf_tx.push_string (b : string_buf_tx) (s : List Char) : string_buf_tx :=
  let strings := b.m_strings ++ [s]
  if b.m_strings.isEmpty then ⟨strings, 0, b.m_byte_it⟩
  else if b.is_empty then ⟨strings, strings.length - 1, b.m_byte_it⟩
  else ⟨strings, b.m_strings_it, b.m_byte_it⟩

/-- `string_buf_tx::pop_byte`: returns NUL when empty; otherwise reads the
current byte (a read at `c_str()[length]` yields the terminating NUL, which
`getD` models), advances, and moves to the next string when the current one
is exhausted (`m_byte_it == c_str() + length`). -/
def string_buf_tx.pop_byte (b : string_buf_tx) : Char × string_buf_tx :=
  if b.is_empty then (Char.ofNat 0, b)
  else
    let current := b.m_strings.getD b.m_strings_it []
    let off := b.m_byte_it.getD 0
    let result := current.getD off (Char.ofNat 0)
    if off + 1 = current.length then
      (result, ⟨b.m_strings, b.m_strings_it + 1, none⟩)
    else
      (result, ⟨b.m_strings, b.m_strings_it, some (off + 1)⟩)

/-- `string_buf_tx::clean`: `m_strings.erase(m_strings.begin(),
m_strings_it)` - the strings strictly before the cursor are released; the
cursor iterator keeps pointing at the same element, which is now first. -/
def string_buf_tx.clean (b : string_buf_tx) : string_buf_tx :=
  ⟨b.m_strings.drop b.m_strings_it, 0, b.m_byte_it⟩

/-- Basic well-formedness: the string cursor does not point past `end()`.
Holds in every reachable state. -/
def tx_wf (b : string_buf_tx) : Bool :=
  b.m_strings_it ≤ b.m_strings.length

/-- The observable content of the buffer: the not-yet-finished strings from
the cursor on, and the byte cursor.  Every operation of `string_buf_tx`
factors through this abstraction. -/
def tx_abs (b : string_buf_tx) : List (List Char) × Option Nat :=
  (b.m_strings.drop b.m_strings_it, b.m_byte_it)

theorem tx_is_empty_abs (b : string_buf_tx) (hw : tx_wf b = true) :
    b.is_empty = (tx_abs b).1.isEmpty := by
  have hle : b.m_strings_it ≤ b.m_strings.length := by simpa [tx_wf] using hw
  by_cases h : b.m_strings_it = b.m_strings.length
  · simp [string_buf_tx.is_empty, tx_abs, h, List.drop_length]
  · have hd : (b.m_strings.drop b.m_strings_it).length ≠ 0 := by
      simp [List.length_drop]; omega
    simp only [string_buf_tx.is_empty, tx_abs]
    rw [decide_eq_false h]
    cases hdd : (b.m_strings.drop b.m_strings_it).isEmpty
    · rfl
    · exfalso
      exact hd (by rw [List.isEmpty_iff.1 hdd]; rfl)

theorem tx_push_abs (b : string_buf_tx) (s : List Char) (hw : tx_wf b = true) :
    tx_abs (b.push_string s) = ((tx_abs b).1 ++ [s], (tx_abs b).2) ∧
    tx_wf (b.push_string s) = true := by
  have hle : b.m_strings_it ≤ b.m_strings.length := by simpa [tx_wf] using hw
  unfold string_buf_tx.push_string
  by_cases h0 : b.m_strings.isEmpty = true
  · have hnil : b.m_strings = [] := List.isEmpty_iff.1 h0
    have hit : b.m_strings_it = 0 := by rw [hnil] at hle; simpa using hle
    simp [h0, tx_abs, tx_wf, hnil, hit]
  · by_cases h1 : b.is_empty = true
    · have hit : b.m_strings_it = b.m_strings.length := by
        simpa [string_buf_tx.is_empty] using h1
      simp only [h0, Bool.false_eq_true, if_false, h1, if_true, tx_abs, tx_wf,
        List.length_append, List.length_cons, List.length_nil]
      constructor
      · rw [hit]
        have h2 : b.m_strings.length + 1 - 1 = b.m_strings.length := by omega
        rw [h2, List.drop_left, List.drop_length]
        simp
      · simp
    · simp only [h0, Bool.false_eq_true, if_false, h1, tx_abs, tx_wf,
        List.length_append, List.length_cons, List.length_nil]
      constructor
      · rw [List.drop_append_of_le_length hle]
      · simp only [decide_eq_true_eq]; omega

theorem tx_getD_headD (b : string_buf_tx) :
    b.m_strings.getD b.m_strings_it [] =
      (b.m_strings.drop b.m_strings_it).headD [] := by
  rw [List.getD_eq_getElem?_getD, List.headD_eq_head?_getD, List.head?_drop]

theorem tx_pop_out (b : string_buf_tx) (_hw : tx_wf b = true) :
    (b.pop_byte).1 =
      ((tx_abs b).1.headD []).getD ((tx_abs b).2.getD 0) (Char.ofNat 0) := by
  by_cases h : b.is_empty = true
  · have hit : b.m_strings_it = b.m_strings.length := by
      simpa [string_buf_tx.is_empty] using h
    simp [string_buf_tx.pop_byte, h, tx_abs, hit, List.drop_length]
  · unfold string_buf_tx.pop_byte
    simp only [h, Bool.false_eq_true, if_false, tx_abs, tx_getD_headD b]
    split <;> rfl

theorem tx_pop_next (b : string_buf_tx) (hw : tx_wf b = true) :
    tx_abs (b.pop_byte).2 =
      (if (tx_abs b).1.isEmpty then tx_abs b
       else if (tx_abs b).2.getD 0 + 1 = ((tx_abs b).1.headD []).length then
         ((tx_abs b).1.tail, none)
       else ((tx_abs b).1, some ((tx_abs b).2.getD 0 + 1))) ∧
    tx_wf (b.pop_byte).2 = true := by
  have hle : b.m_strings_it ≤ b.m_strings.length := by simpa [tx_wf] using hw
  have hemp := tx_is_empty_abs b hw
  by_cases h : b.is_empty = true
  · rw [h] at hemp
    simp [string_buf_tx.pop_byte, h, ← hemp, hw]
  · have hbf : b.is_empty = false := by
      cases hb : b.is_empty
      · rfl
      · exact absurd hb h
    have hemp2 : (tx_abs b).1.isEmpty = false := by rw [← hemp]; exact hbf
    have hemp3 : (b.m_strings.drop b.m_strings_it).isEmpty = false := by
      simpa [tx_abs] using hemp2
    have hlt : b.m_strings_it < b.m_strings.length :=
      lt_of_le_of_ne hle (of_decide_eq_false hbf)
    have hhd : (b.m_strings.drop b.m_strings_it).headD [] =
        b.m_strings.getD b.m_strings_it [] := (tx_getD_headD b).symm
    by_cases hx : b.m_byte_it.getD 0 + 1 = (b.m_strings.getD b.m_strings_it []).length
    · have hx2 : b.m_byte_it.getD 0 + 1 = (b.m_strings[b.m_strings_it]?.getD []).length := by
        rw [← List.getD_eq_getElem?_getD]; exact hx
      have hl : (b.pop_byte).2 = ⟨b.m_strings, b.m_strings_it + 1, none⟩ := by
        unfold string_buf_tx.pop_byte
        simp [h, hx2]
      constructor
      · rw [hl]
        simp only [tx_abs, hemp3, Bool.false_eq_true, if_false]
        rw [hhd, if_pos hx]
        simp [List.tail_drop]
      · rw [hl]
        simp only [tx_wf, decide_eq_true_eq]
        omega
    · have hx2 : ¬ b.m_byte_it.getD 0 + 1 = (b.m_strings[b.m_strings_it]?.getD []).length := by
        rw [← List.getD_eq_getElem?_getD]; exact hx
      have hl : (b.pop_byte).2 =
          ⟨b.m_strings, b.m_strings_it, some (b.m_byte_it.getD 0 + 1)⟩ := by
        unfold string_buf_tx.pop_byte
        simp [h, hx2]
      constructor
      · rw [hl]
        simp only [tx_abs, hemp3, Bool.false_eq_true, if_false]
        rw [hhd, if_neg hx]
      · rw [hl]
        simp only [tx_wf, decide_eq_true_eq]
        omega

end ATCH

namespace ATCH

/-- An operation on the TX byte source: a `push_string` from the sender
task or a `pop_byte` from the TX ISR. -/
inductive tx_op where
  | push (s : List Char)
  | pop
  deriving DecidableEq, Repr

/-- Run a trace of operations; collects the bytes the pops returned, in
order. -/
def tx_run : List tx_op → string_buf_tx → string_buf_tx × List Char
  | [], b => (b, [])
  | .push s :: rest, b => tx_run rest (b.push_string s)
  | .pop :: rest, b =>
    let r := b.pop_byte
    let w := tx_run rest r.2
    (w.1, r.1 :: w.2)

theorem tx_run_congr :
    ∀ (ops : List tx_op) (b c : string_buf_tx),
      tx_wf b = true → tx_wf c = true → tx_abs b = tx_abs c →
      (tx_run ops b).2 = (tx_run ops c).2 ∧
        tx_abs (tx_run ops b).1 = tx_abs (tx_run ops c).1 ∧
        tx_wf (tx_run ops b).1 = true ∧ tx_wf (tx_run ops c).1 = true := by
  intro ops
  induction ops with
  | nil =>
    intro b c hb hc habs
    exact ⟨rfl, habs, hb, hc⟩
  | cons op rest ih =>
    intro b c hb hc habs
    cases op with
    | push s =>
      obtain ⟨hb1, hb2⟩ := tx_push_abs b s hb
      obtain ⟨hc1, hc2⟩ := tx_push_abs c s hc
      have habs2 : tx_abs (b.push_string s) = tx_abs (c.push_string s) := by
        rw [hb1, hc1, habs]
      exact ih (b.push_string s) (c.push_string s) hb2 hc2 habs2
    | pop =>
      have hout : (b.pop_byte).1 = (c.pop_byte).1 := by
        rw [tx_pop_out b hb, tx_pop_out c hc, habs]
      obtain ⟨hb1, hb2⟩ := tx_pop_next b hb
      obtain ⟨hc1, hc2⟩ := tx_pop_next c hc
      have habs2 : tx_abs (b.pop_byte).2 = tx_abs (c.pop_byte).2 := by
        rw [hb1, hc1, habs]
      obtain ⟨h1, h2, h3, h4⟩ := ih (b.pop_byte).2 (c.pop_byte).2 hb2 hc2 habs2
      refine ⟨?_, h2, h3, h4⟩
      simp only [tx_run, hout, h1]

/--
C10.  In any well-formed state of the TX byte source (string cursor not
past `end()`, which holds in every reachable state), `clean()` releases
exactly the strings strictly before the cursor, and is otherwise
unobservable: for every subsequent trace of `push_string`/`pop_byte`
operations, the bytes `pop_byte` returns and the final `is_empty` value
are identical to what they would be had `clean()` not been called.
-/
theorem tx_clean_transparent (b : string_buf_tx) (ops : List tx_op)
    (hw : tx_wf b = true) :
    (b.clean).m_strings = b.m_strings.drop b.m_strings_it ∧
    (tx_run ops b.clean).2 = (tx_run ops b).2 ∧
    (tx_run ops b.clean).1.is_empty = (tx_run ops b).1.is_empty := by
  have hwc : tx_wf b.clean = true := by
    simp [tx_wf, string_buf_tx.clean]
  have habs : tx_abs b.clean = tx_abs b := by
    simp [tx_abs, string_buf_tx.clean]
  obtain ⟨h1, h2, h3, h4⟩ := tx_run_congr ops b.clean b hwc hw habs
  refine ⟨rfl, h1, ?_⟩
  rw [tx_is_empty_abs _ h3, tx_is_empty_abs _ h4, h2]

/-- Witness for C10: a buffer with one consumed string; after `clean` the
interleaved pop/push/pop trace returns the same bytes. -/
theorem tx_clean_transparent_witness :
    tx_wf ⟨["AB".toList, "CD".toList], 1, none⟩ = true ∧
    (tx_run [tx_op.pop, tx_op.push "E".toList, tx_op.pop, tx_op.pop]
        (string_buf_tx.clean ⟨["AB".toList, "CD".toList], 1, none⟩)).2 =
      (tx_run [tx_op.pop, tx_op.push "E".toList, tx_op.pop, tx_op.pop]
        ⟨["AB".toList, "CD".toList], 1, none⟩).2 :=
  ⟨by decide,
   (tx_clean_transparent ⟨["AB".toList, "CD".toList], 1, none⟩
      [tx_op.pop, tx_op.push "E".toList, tx_op.pop, tx_op.pop] (by decide)).2.1⟩

end ATCH

namespace ATCH

/-- Reachable-state invariant of the TX byte source when only non-empty
strings are pushed (the driver pushes command prefixes, payloads and
CR-LF): the cursor is in range, every stored string is non-empty, and a
non-null byte cursor points strictly inside the current string. -/
def tx_inv (b : string_buf_tx) : Bool :=
  tx_wf b &&
  b.m_strings.all (fun s => ! s.isEmpty) &&
  (match b.m_byte_it with
   | none => true
   | some k =>
     decide (b.m_strings_it < b.m_strings.length) &&
     decide (k < (b.m_strings.getD b.m_strings_it []).length))

/-- The bytes still to be emitted: the tail of the current string from the
byte cursor, then the strings after it. -/
def tx_remaining (b : string_buf_tx) : List Char :=
  match b.m_strings.drop b.m_strings_it with
  | [] => []
  | s :: rest => s.drop (b.m_byte_it.getD 0) ++ rest.flatten

theorem tx_inv_wf {b : string_buf_tx} (h : tx_inv b = true) : tx_wf b = true := by
  simp only [tx_inv, Bool.and_eq_true] at h
  exact h.1.1

theorem tx_inv_nonempty {b : string_buf_tx} (h : tx_inv b = true) :
    ∀ s ∈ b.m_strings, s ≠ [] := by
  simp only [tx_inv, Bool.and_eq_true, List.all_eq_true] at h
  intro s hs
  have := h.1.2 s hs
  simpa [List.isEmpty_iff] using this

theorem tx_inv_byte {b : string_buf_tx} (h : tx_inv b = true) :
    ∀ k, b.m_byte_it = some k →
      b.m_strings_it < b.m_strings.length ∧
        k < (b.m_strings.getD b.m_strings_it []).length := by
  intro k hk
  simp only [tx_inv, Bool.and_eq_true] at h
  have h2 := h.2
  rw [hk] at h2
  simp only [Bool.and_eq_true, decide_eq_true_eq] at h2
  exact h2

theorem drop_eq_getD_cons {α : Type} (l : List α) (n : Nat) (d : α)
    (h : n < l.length) : l.drop n = l.getD n d :: l.drop (n + 1) := by
  rw [List.getD_eq_getElem l d h]
  exact List.drop_eq_getElem_cons h

theorem tx_remaining_of_lt (b : string_buf_tx)
    (hlt : b.m_strings_it < b.m_strings.length) :
    tx_remaining b =
      (b.m_strings.getD b.m_strings_it []).drop (b.m_byte_it.getD 0) ++
        (b.m_strings.drop (b.m_strings_it + 1)).flatten := by
  unfold tx_remaining
  rw [drop_eq_getD_cons b.m_strings b.m_strings_it [] hlt]

theorem tx_remaining_none (l : List (List Char)) (j : Nat) :
    tx_remaining ⟨l, j, none⟩ = (l.drop j).flatten := by
  cases h : l.drop j <;> simp [tx_remaining, h]

theorem tx_empty_iff (b : string_buf_tx) (hinv : tx_inv b = true) :
    (b.is_empty = true ↔ tx_remaining b = []) := by
  have hle : b.m_strings_it ≤ b.m_strings.length := by
    simpa [tx_wf] using tx_inv_wf hinv
  constructor
  · intro h
    have hit : b.m_strings_it = b.m_strings.length := by
      simpa [string_buf_tx.is_empty] using h
    simp [tx_remaining, hit, List.drop_length]
  · intro h
    by_contra hne
    have hbf : b.is_empty = false := by
      cases hb : b.is_empty
      · rfl
      · exact absurd hb hne
    have hlt : b.m_strings_it < b.m_strings.length :=
      lt_of_le_of_ne hle (of_decide_eq_false hbf)
    have hcur : b.m_strings.getD b.m_strings_it [] ≠ [] := by
      apply tx_inv_nonempty hinv
      rw [List.getD_eq_getElem b.m_strings [] hlt]
      exact List.getElem_mem hlt
    have hoff : b.m_byte_it.getD 0 < (b.m_strings.getD b.m_strings_it []).length := by
      cases hk : b.m_byte_it with
      | none =>
        simp only [hk, Option.getD_none]
        cases hc : b.m_strings.getD b.m_strings_it []
        · exact absurd hc hcur
        · simp
      | some k =>
        simp only [hk, Option.getD_some]
        exact (tx_inv_byte hinv k hk).2
    rw [tx_remaining_of_lt b hlt] at h
    have : (b.m_strings.getD b.m_strings_it []).drop (b.m_byte_it.getD 0) = [] := by
      rcases List.append_eq_nil.1 h with ⟨h1, _⟩
      exact h1
    have hl := congrArg List.length this
    rw [List.length_drop] at hl
    simp only [List.length_nil] at hl
    omega

end ATCH

namespace ATCH

theorem tx_push_inv (b : string_buf_tx) (s : List Char)
    (hinv : tx_inv b = true) (hs : s ≠ []) :
    tx_inv (b.push_string s) = true ∧
    tx_remaining (b.push_string s) = tx_remaining b ++ s := by
  have hle : b.m_strings_it ≤ b.m_strings.length := by
    simpa [tx_wf] using tx_inv_wf hinv
  have hall : b.m_strings.all (fun t => ! t.isEmpty) = true := by
    simp only [tx_inv, Bool.and_eq_true] at hinv
    exact hinv.1.2
  have hse : s.isEmpty = false := by
    cases hc : s
    · exact absurd hc hs
    · rfl
  unfold string_buf_tx.push_string
  by_cases h0 : b.m_strings.isEmpty = true
  · have hnil : b.m_strings = [] := List.isEmpty_iff.1 h0
    have hit : b.m_strings_it = 0 := by rw [hnil] at hle; simpa using hle
    have hbn : b.m_byte_it = none := by
      cases hk : b.m_byte_it with
      | none => rfl
      | some k =>
        have := (tx_inv_byte hinv k hk).1
        rw [hnil] at this
        simp at this
    simp only [h0, if_true]
    constructor
    · simp [tx_inv, tx_wf, hnil, hbn, hse]
    · simp [tx_remaining, hit, hnil, hbn]
  · by_cases h1 : b.is_empty = true
    · have hit : b.m_strings_it = b.m_strings.length := by
        simpa [string_buf_tx.is_empty] using h1
      have hbn : b.m_byte_it = none := by
        cases hk : b.m_byte_it with
        | none => rfl
        | some k =>
          have := (tx_inv_byte hinv k hk).1
          omega
      simp only [h0, Bool.false_eq_true, if_false, h1, if_true]
      constructor
      · simp only [tx_inv, tx_wf, hbn, List.all_append, Bool.and_eq_true,
          decide_eq_true_eq, List.length_append, List.length_cons, List.length_nil]
        refine ⟨⟨by omega, ?_⟩, trivial⟩
        simp [hall, hse]
      · have hold : tx_remaining b = [] := by
          simp [tx_remaining, hit, List.drop_length]
        rw [hold, List.nil_append, hbn, tx_remaining_none]
        have harith : (b.m_strings ++ [s]).length - 1 = b.m_strings.length := by
          simp
        rw [harith, List.drop_left]
        simp
    · have hbf : b.is_empty = false := by
        cases hb : b.is_empty
        · rfl
        · exact absurd hb h1
      have hlt : b.m_strings_it < b.m_strings.length :=
        lt_of_le_of_ne hle (of_decide_eq_false hbf)
      simp only [h0, Bool.false_eq_true, if_false, h1]
      constructor
      · simp only [tx_inv, tx_wf, List.all_append, Bool.and_eq_true,
          decide_eq_true_eq, List.length_append, List.length_cons, List.length_nil]
        refine ⟨⟨by omega, ?_⟩, ?_⟩
        · simp [hall, hse]
        · cases hk : b.m_byte_it with
          | none => trivial
          | some k =>
            obtain ⟨hk1, hk2⟩ := tx_inv_byte hinv k hk
            simp only [Bool.and_eq_true, decide_eq_true_eq]
            refine ⟨by omega, ?_⟩
            rw [List.getD_append]
            · exact hk2
            · exact hlt
      · have hlt2 : b.m_strings_it < (b.m_strings ++ [s]).length := by
          simp only [List.length_append, List.length_cons, List.length_nil]
          omega
        rw [show tx_remaining ⟨b.m_strings ++ [s], b.m_strings_it, b.m_byte_it⟩ =
            ((b.m_strings ++ [s]).getD b.m_strings_it []).drop (b.m_byte_it.getD 0) ++
              ((b.m_strings ++ [s]).drop (b.m_strings_it + 1)).flatten from
          tx_remaining_of_lt _ hlt2]
        rw [tx_remaining_of_lt b hlt]
        rw [List.getD_append _ _ _ _ hlt,
          List.drop_append_of_le_length (by omega), List.flatten_append]
        simp [List.append_assoc]

theorem tx_pop_inv (b : string_buf_tx) (hinv : tx_inv b = true)
    (hne : b.is_empty = false) :
    tx_inv (b.pop_byte).2 = true ∧
    (b.pop_byte).1 :: tx_remaining (b.pop_byte).2 = tx_remaining b := by
  have hle : b.m_strings_it ≤ b.m_strings.length := by
    simpa [tx_wf] using tx_inv_wf hinv
  have hall : b.m_strings.all (fun t => ! t.isEmpty) = true := by
    simp only [tx_inv, Bool.and_eq_true] at hinv
    exact hinv.1.2
  have hlt : b.m_strings_it < b.m_strings.length :=
    lt_of_le_of_ne hle (of_decide_eq_false hne)
  have hcur : b.m_strings.getD b.m_strings_it [] ≠ [] := by
    apply tx_inv_nonempty hinv
    rw [List.getD_eq_getElem b.m_strings [] hlt]
    exact List.getElem_mem hlt
  have hoff : b.m_byte_it.getD 0 < (b.m_strings.getD b.m_strings_it []).length := by
    cases hk : b.m_byte_it with
    | none =>
      simp only [hk, Option.getD_none]
      cases hc : b.m_strings.getD b.m_strings_it []
      · exact absurd hc hcur
      · simp
    | some k =>
      simp only [hk, Option.getD_some]
      exact (tx_inv_byte hinv k hk).2
  have hnet : ¬ b.is_empty = true := by rw [hne]; simp
  have hresult : (b.pop_byte).1 =
      (b.m_strings.getD b.m_strings_it []).getD (b.m_byte_it.getD 0) (Char.ofNat 0) := by
    unfold string_buf_tx.pop_byte
    simp only [hnet, Bool.false_eq_true, if_false]
    split <;> rfl
  have hcurdrop : (b.m_strings.getD b.m_strings_it []).drop (b.m_byte_it.getD 0) =
      (b.m_strings.getD b.m_strings_it []).getD (b.m_byte_it.getD 0) (Char.ofNat 0) ::
        (b.m_strings.getD b.m_strings_it []).drop (b.m_byte_it.getD 0 + 1) :=
    drop_eq_getD_cons _ _ _ hoff
  by_cases hx : b.m_byte_it.getD 0 + 1 = (b.m_strings.getD b.m_strings_it []).length
  · have hx2 : b.m_byte_it.getD 0 + 1 = (b.m_strings[b.m_strings_it]?.getD []).length := by
      rw [← List.getD_eq_getElem?_getD]
      exact hx
    have hl : (b.pop_byte).2 = ⟨b.m_strings, b.m_strings_it + 1, none⟩ := by
      unfold string_buf_tx.pop_byte
      simp [hnet, hx2]
    constructor
    · rw [hl]
      simp only [tx_inv, tx_wf, Bool.and_eq_true, decide_eq_true_eq]
      exact ⟨⟨by omega, hall⟩, trivial⟩
    · rw [hl, hresult, tx_remaining_none, tx_remaining_of_lt b hlt, hcurdrop]
      have hdone : (b.m_strings.getD b.m_strings_it []).drop (b.m_byte_it.getD 0 + 1) =
          [] := by
        apply List.drop_eq_nil_of_le
        omega
      rw [hdone]
      simp
  · have hx2 : ¬ b.m_byte_it.getD 0 + 1 = (b.m_strings[b.m_strings_it]?.getD []).length := by
      rw [← List.getD_eq_getElem?_getD]
      exact hx
    have hl : (b.pop_byte).2 =
        ⟨b.m_strings, b.m_strings_it, some (b.m_byte_it.getD 0 + 1)⟩ := by
      unfold string_buf_tx.pop_byte
      simp [hnet, hx2]
    constructor
    · rw [hl]
      simp only [tx_inv, tx_wf, Bool.and_eq_true, decide_eq_true_eq]
      exact ⟨⟨by omega, hall⟩, ⟨by omega, by omega⟩⟩
    · rw [hl, hresult]
      rw [show tx_remaining ⟨b.m_strings, b.m_strings_it, some (b.m_byte_it.getD 0 + 1)⟩ =
          (b.m_strings.getD b.m_strings_it []).drop (b.m_byte_it.getD 0 + 1) ++
            (b.m_strings.drop (b.m_strings_it + 1)).flatten from
        tx_remaining_of_lt _ hlt]
      rw [tx_remaining_of_lt b hlt, hcurdrop]
      simp

end ATCH

namespace ATCH

/-- The strings pushed along a trace, in order. -/
def tx_pushed : List tx_op → List (List Char)
  | [] => []
  | .push s :: rest => s :: tx_pushed rest
  | .pop :: rest => tx_pushed rest

/-- All strings pushed along the trace are non-empty. -/
def tx_pushes_nonempty : List tx_op → Bool
  | [] => true
  | .push s :: rest => ! s.isEmpty && tx_pushes_nonempty rest
  | .pop :: rest => tx_pushes_nonempty rest

/-- Every pop in the trace happens while the source is non-empty (the TX
ISR checks `is_empty` before popping). -/
def tx_pops_guarded : List tx_op → string_buf_tx → Bool
  | [], _ => true
  | .push s :: rest, b => tx_pops_guarded rest (b.push_string s)
  | .pop :: rest, b => ! b.is_empty && tx_pops_guarded rest (b.pop_byte).2

theorem tx_run_spec :
    ∀ (ops : List tx_op) (b : string_buf_tx),
      tx_inv b = true → tx_pushes_nonempty ops = true →
      tx_pops_guarded ops b = true →
      (tx_run ops b).2 ++ tx_remaining (tx_run ops b).1 =
          tx_remaining b ++ (tx_pushed ops).flatten ∧
        tx_inv (tx_run ops b).1 = true := by
  intro ops
  induction ops with
  | nil =>
    intro b hinv _ _
    exact ⟨by simp [tx_run, tx_pushed], hinv⟩
  | cons op rest ih =>
    intro b hinv hne hg
    cases op with
    | push s =>
      have hs : s ≠ [] := by
        simp only [tx_pushes_nonempty, Bool.and_eq_true] at hne
        have := hne.1
        simpa [List.isEmpty_iff] using this
      have hne2 : tx_pushes_nonempty rest = true := by
        simp only [tx_pushes_nonempty, Bool.and_eq_true] at hne
        exact hne.2
      have hg2 : tx_pops_guarded rest (b.push_string s) = true := hg
      obtain ⟨hinv2, hrem⟩ := tx_push_inv b s hinv hs
      obtain ⟨ih1, ih2⟩ := ih (b.push_string s) hinv2 hne2 hg2
      refine ⟨?_, ih2⟩
      show (tx_run rest (b.push_string s)).2 ++
          tx_remaining (tx_run rest (b.push_string s)).1 =
        tx_remaining b ++ (s :: tx_pushed rest).flatten
      rw [ih1, hrem]
      simp [List.flatten_cons, List.append_assoc]
    | pop =>
      simp only [tx_pops_guarded, Bool.and_eq_true] at hg
      have hbe : b.is_empty = false := by
        have := hg.1
        cases hb : b.is_empty
        · rfl
        · rw [hb] at this; exact absurd this (by simp)
      obtain ⟨hinv2, hrem⟩ := tx_pop_inv b hinv hbe
      obtain ⟨ih1, ih2⟩ := ih (b.pop_byte).2 hinv2 hne hg.2
      refine ⟨?_, ih2⟩
      show ((b.pop_byte).1 :: (tx_run rest (b.pop_byte).2).2) ++
          tx_remaining (tx_run rest (b.pop_byte).2).1 =
        tx_remaining b ++ (tx_pushed rest).flatten
      rw [List.cons_append, ih1, ← hrem, List.cons_append]

/--
C7 (amended).  For every trace of `push_string`/`pop_byte` calls in which
every pushed string is *non-empty*, every pop runs while the source is
non-empty (the TX ISR's guard), and the number of pops equals the total
pushed length, the bytes returned by the pops form exactly the
concatenation s1 · s2 · … · sm of the pushed strings, in order, and
`is_empty` then returns true.  (An empty pushed string breaks the claim as
stated: see the counterexample.)
-/
theorem tx_roundtrip (ops : List tx_op)
    (h1 : tx_pushes_nonempty ops = true)
    (h2 : tx_pops_guarded ops tx_init = true)
    (h3 : (tx_run ops tx_init).2.length = ((tx_pushed ops).flatten).length) :
    (tx_run ops tx_init).2 = (tx_pushed ops).flatten ∧
    (tx_run ops tx_init).1.is_empty = true := by
  have hinv0 : tx_inv tx_init = true := by rfl
  obtain ⟨hspec, hinvf⟩ := tx_run_spec ops tx_init hinv0 h1 h2
  have hrem0 : tx_remaining tx_init = [] := rfl
  rw [hrem0, List.nil_append] at hspec
  have hlen : (tx_remaining (tx_run ops tx_init).1).length = 0 := by
    have hc := congrArg List.length hspec
    rw [List.length_append] at hc
    omega
  have hremf : tx_remaining (tx_run ops tx_init).1 = [] :=
    List.eq_nil_of_length_eq_zero hlen
  constructor
  · rw [hremf, List.append_nil] at hspec
    exact hspec
  · exact (tx_empty_iff _ hinvf).2 hremf

/-- Witness for the amended C7: pushing `AB`, then popping, pushing `C`
and popping twice yields exactly `ABC`, leaving the source empty. -/
theorem tx_roundtrip_witness :
    (tx_run [tx_op.push "AB".toList, tx_op.pop, tx_op.push "C".toList,
        tx_op.pop, tx_op.pop] tx_init).2 = "ABC".toList ∧
    (tx_run [tx_op.push "AB".toList, tx_op.pop, tx_op.push "C".toList,
        tx_op.pop, tx_op.pop] tx_init).1.is_empty = true := by
  have h := tx_roundtrip [tx_op.push "AB".toList, tx_op.pop, tx_op.push "C".toList,
    tx_op.pop, tx_op.pop] (by decide) (by decide) (by decide)
  exact ⟨by rw [h.1]; decide, h.2⟩

/-- Counterexample to C7 as stated: pushing the single *empty* string, the
concatenation of pushed strings is empty and zero pops return all of it,
yet `is_empty` still reports false (the cursor points at the stored empty
string). -/
theorem tx_roundtrip_cex :
    (tx_pushed [tx_op.push []]).flatten = [] ∧
    (tx_run [tx_op.push []] tx_init).2 = [] ∧
    (tx_run [tx_op.push []] tx_init).1.is_empty = false := by
  decide

end ATCH

namespace ATCH

/-! ### RX line framer (`cyclic_buf.hpp`, `string_buf_rx.hpp`) -/

/-- `cyclic_buf<T, N>`: fixed storage of `N` slots with head and tail
indices.  The source wraps with `& (N - 1)`, which equals `% N` because a
`static_assert` forces `N` to be a power of two; the model uses `% N`. -/
structure cyclic_buf (α : Type) where
  buf : List α
  head : Nat
  tail : Nat
  deriving DecidableEq, Repr

/-- `cyclic_buf::push_elem`: write at `head`, advance it modulo the size. -/
def cyclic_buf.push_elem {α : Type} (N : Nat) (cb : cyclic_buf α) (v : α) :
    cyclic_buf α :=
  { buf := cb.buf.set cb.head v, head := (cb.head + 1) % N, tail := cb.tail }

/-- `cyclic_buf::pop_elem`: read at `tail`, advance it modulo the size. -/
def cyclic_buf.pop_elem {α : Type} (N : Nat) (d : α) (cb : cyclic_buf α) :
    α × cyclic_buf α :=
  (cb.buf.getD cb.tail d, { cb with tail := (cb.tail + 1) % N })

/-- `cyclic_buf::pop_nelems(p, n)`: copy `n` elements starting at `tail`
(the source's two-branch copy handles the wrap; the model reads each index
modulo the size), then advance `tail` by `n` modulo the size. -/
def cyclic_buf.pop_nelems {α : Type} (N : Nat) (d : α) (cb : cyclic_buf α)
    (n : Nat) : List α × cyclic_buf α :=
  ((List.range n).map (fun i => cb.buf.getD ((cb.tail + i) % N) d),
   { cb with tail := (cb.tail + n) % N })

/-- `cyclic_buf::is_empty`: `head == tail`. -/
def cyclic_buf.is_empty {α : Type} (cb : cyclic_buf α) : Bool :=
  cb.head = cb.tail

/-- `calc_len_in_circular_buffer(beg, end, size)`. -/
def calc_len_in_circular_buffer (beg_idx end_idx cyclic_buf_size : Nat) : Nat :=
  if beg_idx > end_idx then cyclic_buf_size - beg_idx + end_idx
  else end_idx - beg_idx

/-- The capacity of the secondary ring of line-end indices
(`ends_indexes_cb_def_size`). -/
def ends_indexes_cb_def_size : Nat := 16

/-- `string_buf_rx<N>`: byte ring, ring of line-end indices, and the index
of the last recorded line end. -/
structure string_buf_rx where
  m_end_indexes_cb : cyclic_buf Nat
  m_cb : cyclic_buf Char
  m_last_end_idx : Nat
  deriving DecidableEq, Repr

/-- A freshly constructed framer with byte-ring capacity `N` (ring storage
is uninitialised in the source; the model fills it with NUL). -/
def rx_init (N : Nat) : string_buf_rx :=
  { m_end_indexes_cb := ⟨List.replicate ends_indexes_cb_def_size 0, 0, 0⟩,
    m_cb := ⟨List.replicate N (Char.ofNat 0), 0, 0⟩,
    m_last_end_idx := 0 }

/-- `string_buf_rx::is_empty`. -/
def string_buf_rx.is_empty (s : string_buf_rx) : Bool :=
  s.m_end_indexes_cb.is_empty

/-- `string_buf_rx::push_byte_and_is_string_end(c)` with byte-ring capacity
`N` and the configured exceptional characters `exc` (only `>` in
practice). -/
def string_buf_rx.push_byte_and_is_string_end (N : Nat) (exc : List Char)
    (s : string_buf_rx) (c : Char) : Bool × string_buf_rx :=
  if c = '\n' ∨ c = '\r' ∨ c = Char.ofNat 0 then
    if s.m_last_end_idx = s.m_cb.head then (false, s)
    else
      (true,
       { s with
         m_end_indexes_cb := s.m_end_indexes_cb.push_elem
           ends_indexes_cb_def_size s.m_cb.head,
         m_last_end_idx := s.m_cb.head })
  else if exc.contains c ∧ s.m_last_end_idx = s.m_cb.head then
    let cb2 := s.m_cb.push_elem N c
    (true,
     { m_cb := cb2,
       m_end_indexes_cb := s.m_end_indexes_cb.push_elem
         ends_indexes_cb_def_size cb2.head,
       m_last_end_idx := cb2.head })
  else (false, { s with m_cb := s.m_cb.push_elem N c })

/-- `string_buf_rx::pop_string()`: empty string when no complete line is
pending; otherwise the bytes between `tail` and the earliest recorded
line-end. -/
def string_buf_rx.pop_string (N : Nat) (s : string_buf_rx) :
    List Char × string_buf_rx :=
  if s.is_empty then ([], s)
  else
    let beg := s.m_cb.tail
    let pe := s.m_end_indexes_cb.pop_elem ends_indexes_cb_def_size 0
    let len := calc_len_in_circular_buffer beg pe.1 N
    let pc := s.m_cb.pop_nelems N (Char.ofNat 0) len
    (pc.1, { s with m_end_indexes_cb := pe.2, m_cb := pc.2 })

/-- Push a whole byte sequence, one byte at a time. -/
def rx_push_all (N : Nat) (exc : List Char) (s : string_buf_rx)
    (bs : List Char) : string_buf_rx :=
  bs.foldl (fun st c => (st.push_byte_and_is_string_end N exc c).2) s

/-- Pop `n` lines in order. -/
def rx_pop_strings (N : Nat) (s : string_buf_rx) :
    Nat → List (List Char) × string_buf_rx
  | 0 => ([], s)
  | n + 1 =>
    let p := s.pop_string N
    let q := rx_pop_strings N p.2 n
    (p.1 :: q.1, q.2)

/-- One step of the line partition described by the claim: CR, LF and NUL
delimit lines, consecutive delimiters produce no line, and an exceptional
character arriving when the current line is empty forms a one-byte line by
itself.  (This is the claim-side reference definition the framer is
compared against.) -/
def line_split_step (exc : List Char) (p : List (List Char) × List Char)
    (c : Char) : List (List Char) × List Char :=
  if c = '\n' ∨ c = '\r' ∨ c = Char.ofNat 0 then
    if p.2 = [] then p else (p.1 ++ [p.2], [])
  else if exc.contains c ∧ p.2 = [] then (p.1 ++ [[c]], [])
  else (p.1, p.2 ++ [c])

/-- The complete lines (and the unterminated trailing bytes) of a byte
sequence, per the claim's partition rules. -/
def line_split (exc : List Char) (bs : List Char) :
    List (List Char) × List Char :=
  bs.foldl (line_split_step exc) ([], [])

end ATCH

namespace ATCH

/-! ### Support lemmas for the framer proof -/

theorem getD_set_self {α : Type} (l : List α) (i : Nat) (v d : α)
    (h : i < l.length) : (l.set i v).getD i d = v := by
  rw [List.getD_eq_getElem?_getD, List.getElem?_set_self h]
  rfl

theorem getD_set_ne {α : Type} (l : List α) (i j : Nat) (v d : α)
    (h : i ≠ j) : (l.set i v).getD j d = l.getD j d := by
  rw [List.getD_eq_getElem?_getD, List.getElem?_set_ne h,
    ← List.getD_eq_getElem?_getD]

theorem take_set_ge {α : Type} (l : List α) (n m : Nat) (v : α) (h : m ≤ n) :
    (l.set n v).take m = l.take m := by
  apply List.ext_getElem?
  intro j
  rw [List.getElem?_take, List.getElem?_take]
  split
  · rw [List.getElem?_set_ne (by omega)]
  · rfl

theorem take_set_succ {α : Type} (l : List α) (n : Nat) (v : α)
    (h : n < l.length) : (l.set n v).take (n + 1) = l.take n ++ [v] := by
  rw [List.take_succ, List.getElem?_set_self h, take_set_ge l n n v (le_refl n)]
  rfl

theorem getD_take_lt {α : Type} (l : List α) (m j : Nat) (d : α) (h : j < m) :
    (l.take m).getD j d = l.getD j d := by
  rw [List.getD_eq_getElem?_getD, List.getElem?_take, if_pos h,
    ← List.getD_eq_getElem?_getD]

theorem slice_map_getD {α : Type} (l : List α) (a : Nat) (d : α) :
    ∀ n, a + n ≤ l.length →
      (List.range n).map (fun i => l.getD (a + i) d) = (l.drop a).take n := by
  intro n
  induction n with
  | zero => intro _; simp
  | succ m ih =>
    intro h
    rw [List.range_succ, List.map_append, ih (by omega), List.take_succ]
    congr 1
    rw [List.getElem?_drop]
    simp only [List.map_cons, List.map_nil]
    rw [List.getD_eq_getElem?_getD, List.getElem?_eq_getElem (by omega)]
    rfl

/-- The total length of the first `k` lines. -/
def sum_take (ls : List (List Char)) (k : Nat) : Nat :=
  ((ls.take k).flatten).length

theorem sum_take_zero (ls : List (List Char)) : sum_take ls 0 = 0 := rfl

theorem sum_take_succ (ls : List (List Char)) (k : Nat) (h : k < ls.length) :
    sum_take ls (k + 1) = sum_take ls k + (ls.getD k []).length := by
  unfold sum_take
  rw [List.take_succ, List.getElem?_eq_getElem h, List.flatten_append,
    List.length_append, List.getD_eq_getElem ls [] h]
  simp

theorem sum_take_length (ls : List (List Char)) :
    sum_take ls ls.length = ls.flatten.length := by
  unfold sum_take
  rw [List.take_of_length_le (le_refl _)]

theorem sum_take_le (ls : List (List Char)) (k : Nat) :
    sum_take ls k ≤ ls.flatten.length := by
  conv_rhs => rw [← List.take_append_drop k ls]
  rw [List.flatten_append, List.length_append]
  exact Nat.le_add_right _ _

theorem sum_take_take_append (ls ex : List (List Char)) (k : Nat)
    (h : k ≤ ls.length) : sum_take (ls ++ ex) k = sum_take ls k := by
  unfold sum_take
  rw [List.take_append_of_le_length h]

/-- The joint state description of the framer: the first `k` recorded
lines are already popped; the lines `ls` (split per the claim's rules,
with unterminated residue `cur`) were pushed from a fresh framer. -/
def RxSt (N : Nat) (ls : List (List Char)) (cur : List Char) (k : Nat)
    (s : string_buf_rx) : Prop :=
  s.m_cb.buf.length = N ∧
  s.m_end_indexes_cb.buf.length = ends_indexes_cb_def_size ∧
  s.m_cb.tail = sum_take ls k ∧
  s.m_end_indexes_cb.tail = k ∧
  s.m_cb.head = ls.flatten.length + cur.length ∧
  s.m_end_indexes_cb.head = ls.length ∧
  s.m_last_end_idx = ls.flatten.length ∧
  s.m_cb.buf.take (ls.flatten.length + cur.length) = ls.flatten ++ cur ∧
  (∀ i, i < ls.length → s.m_end_indexes_cb.buf.getD i 0 = sum_take ls (i + 1)) ∧
  k ≤ ls.length

/-- Total bytes a partition state stores in the byte ring. -/
def seg_len (p : List (List Char) × List Char) : Nat :=
  p.1.flatten.length + p.2.length

/-- Number of completed lines of a partition state. -/
def seg_lines (p : List (List Char) × List Char) : Nat :=
  p.1.length

theorem seg_len_step_le (exc : List Char) (p : List (List Char) × List Char)
    (c : Char) :
    seg_len p ≤ seg_len (line_split_step exc p c) ∧
      seg_lines p ≤ seg_lines (line_split_step exc p c) := by
  unfold line_split_step seg_len seg_lines
  by_cases h1 : (c = '\n' ∨ c = '\r' ∨ c = Char.ofNat 0)
  · rw [if_pos h1]
    by_cases h2 : p.2 = []
    · rw [if_pos h2]
      exact ⟨le_refl _, le_refl _⟩
    · rw [if_neg h2]
      constructor
      · simp only [List.flatten_append, List.flatten_cons, List.flatten_nil,
          List.length_append, List.length_nil]
        omega
      · simp only [List.length_append, List.length_cons, List.length_nil]
        omega
  · rw [if_neg h1]
    by_cases h3 : exc.contains c ∧ p.2 = []
    · rw [if_pos h3]
      constructor
      · simp only [List.flatten_append, List.flatten_cons, List.flatten_nil,
          List.length_append, List.length_nil, List.length_cons, h3.2]
        omega
      · simp only [List.length_append, List.length_cons, List.length_nil]
        omega
    · rw [if_neg h3]
      constructor
      · simp only [List.length_append, List.length_cons, List.length_nil]
        omega
      · exact le_refl _

theorem seg_len_foldl_le (exc : List Char) :
    ∀ (bs : List Char) (p : List (List Char) × List Char),
      seg_len p ≤ seg_len (bs.foldl (line_split_step exc) p) ∧
        seg_lines p ≤ seg_lines (bs.foldl (line_split_step exc) p) := by
  intro bs
  induction bs with
  | nil => intro p; exact ⟨le_refl _, le_refl _⟩
  | cons c rest ih =>
    intro p
    have h1 := seg_len_step_le exc p c
    have h2 := ih (line_split_step exc p c)
    exact ⟨le_trans h1.1 h2.1, le_trans h1.2 h2.2⟩

end ATCH

namespace ATCH

theorem rx_push_step (N : Nat) (exc : List Char) (ls : List (List Char))
    (cur : List Char) (s : string_buf_rx) (c : Char)
    (hst : RxSt N ls cur 0 s)
    (hN : seg_len (line_split_step exc (ls, cur) c) < N)
    (h16 : seg_lines (line_split_step exc (ls, cur) c) < ends_indexes_cb_def_size) :
    RxSt N (line_split_step exc (ls, cur) c).1
      (line_split_step exc (ls, cur) c).2 0
      ((s.push_byte_and_is_string_end N exc c).2) := by
  obtain ⟨hbl, hel, hct, het, hch, heh, hle, htake, hends, -⟩ := hst
  have hlh : (s.m_last_end_idx = s.m_cb.head) ↔ cur = [] := by
    rw [hle, hch]
    constructor
    · intro h
      have hlen : cur.length = 0 := by omega
      exact List.eq_nil_of_length_eq_zero hlen
    · intro h
      rw [h]
      simp
  by_cases h1 : (c = '\n' ∨ c = '\r' ∨ c = Char.ofNat 0)
  · by_cases h2 : cur = []
    · have hcode : (s.push_byte_and_is_string_end N exc c).2 = s := by
        unfold string_buf_rx.push_byte_and_is_string_end
        rw [if_pos h1, if_pos (hlh.2 h2)]
      have hspec : line_split_step exc (ls, cur) c = (ls, cur) := by
        unfold line_split_step
        rw [if_pos h1, if_pos h2]
      rw [hcode, hspec]
      exact ⟨hbl, hel, hct, het, hch, heh, hle, htake, hends, Nat.zero_le _⟩
    · have hspec : line_split_step exc (ls, cur) c = (ls ++ [cur], []) := by
        unfold line_split_step
        rw [if_pos h1, if_neg h2]
      have hcode : (s.push_byte_and_is_string_end N exc c).2 =
          { s with
            m_end_indexes_cb := s.m_end_indexes_cb.push_elem
              ends_indexes_cb_def_size s.m_cb.head,
            m_last_end_idx := s.m_cb.head } := by
        unfold string_buf_rx.push_byte_and_is_string_end
        rw [if_pos h1, if_neg (fun hc => h2 (hlh.1 hc))]
      rw [hspec, hcode]
      have hF : (ls ++ [cur]).flatten.length = ls.flatten.length + cur.length := by
        simp [List.flatten_append]
      have hlines : ls.length + 1 < ends_indexes_cb_def_size := by
        rw [hspec] at h16
        simpa [seg_lines] using h16
      refine ⟨hbl, ?_, ?_, het, ?_, ?_, ?_, ?_, ?_, Nat.zero_le _⟩
      · simp [cyclic_buf.push_elem, List.length_set, hel]
      · exact hct
      · rw [hch, hF]
        simp
      · simp only [cyclic_buf.push_elem, heh]
        rw [Nat.mod_eq_of_lt hlines]
        simp
      · rw [hch, hF]
      · simp only [hF, List.length_nil, Nat.add_zero, List.flatten_append,
          List.flatten_cons, List.flatten_nil, List.append_nil]
        rw [List.length_append]
        exact htake
      · intro i hi
        simp only [cyclic_buf.push_elem, heh]
        simp only [List.length_append, List.length_cons, List.length_nil] at hi
        by_cases hik : i < ls.length
        · rw [getD_set_ne _ _ _ _ _ (by omega), hends i hik,
            sum_take_take_append ls [cur] (i + 1) (by omega)]
        · have hieq : i = ls.length := by omega
          subst hieq
          rw [getD_set_self _ _ _ _ (by rw [hel]; omega)]
          have hlen2 : ls.length + 1 = (ls ++ [cur]).length := by simp
          rw [hlen2, sum_take_length, hF, hch]
  · by_cases h3 : exc.contains c = true ∧ cur = []
    · have hspec : line_split_step exc (ls, cur) c = (ls ++ [[c]], []) := by
        unfold line_split_step
        rw [if_neg h1, if_pos ⟨h3.1, h3.2⟩]
      have hcode : (s.push_byte_and_is_string_end N exc c).2 =
          { m_cb := s.m_cb.push_elem N c,
            m_end_indexes_cb := s.m_end_indexes_cb.push_elem
              ends_indexes_cb_def_size ((s.m_cb.push_elem N c).head),
            m_last_end_idx := (s.m_cb.push_elem N c).head } := by
        unfold string_buf_rx.push_byte_and_is_string_end
        rw [if_neg h1, if_pos ⟨h3.1, hlh.2 h3.2⟩]
      rw [hspec, hcode]
      have hcur0 : cur.length = 0 := by rw [h3.2]; rfl
      have hF : (ls ++ [[c]]).flatten.length = ls.flatten.length + 1 := by
        simp [List.flatten_append]
      have hNF : ls.flatten.length + 1 < N := by
        rw [hspec] at hN
        simp only [seg_len, hF, List.length_nil, Nat.add_zero] at hN
        exact hN
      have hlines : ls.length + 1 < ends_indexes_cb_def_size := by
        rw [hspec] at h16
        simpa [seg_lines] using h16
      have hheadF : s.m_cb.head = ls.flatten.length := by omega
      have hhead2 : (s.m_cb.push_elem N c).head = ls.flatten.length + 1 := by
        simp only [cyclic_buf.push_elem, hheadF]
        exact Nat.mod_eq_of_lt hNF
      refine ⟨?_, ?_, ?_, het, ?_, ?_, ?_, ?_, ?_, Nat.zero_le _⟩
      · simp [cyclic_buf.push_elem, List.length_set, hbl]
      · simp [cyclic_buf.push_elem, List.length_set, hel]
      · exact hct
      · rw [hhead2, hF]
        simp
      · simp only [cyclic_buf.push_elem, heh]
        rw [Nat.mod_eq_of_lt hlines]
        simp
      · rw [hhead2, hF]
      · simp only [cyclic_buf.push_elem, hF, List.length_nil, Nat.add_zero,
          List.append_nil, hheadF]
        rw [take_set_succ _ _ _ (by omega)]
        have htake2 : s.m_cb.buf.take ls.flatten.length = ls.flatten := by
          rw [hcur0, Nat.add_zero] at htake
          rw [h3.2] at htake
          simpa using htake
        rw [htake2]
        simp [List.flatten_append]
      · intro i hi
        simp only [cyclic_buf.push_elem, heh]
        simp only [List.length_append, List.length_cons, List.length_nil] at hi
        by_cases hik : i < ls.length
        · rw [getD_set_ne _ _ _ _ _ (by omega), hends i hik,
            sum_take_take_append ls [[c]] (i + 1) (by omega)]
        · have hieq : i = ls.length := by omega
          subst hieq
          rw [getD_set_self _ _ _ _ (by rw [hel]; omega)]
          have hlen2 : ls.length + 1 = (ls ++ [[c]]).length := by simp
          rw [hheadF, Nat.mod_eq_of_lt hNF, hlen2, sum_take_length, hF]
    · have hspec : line_split_step exc (ls, cur) c = (ls, cur ++ [c]) := by
        unfold line_split_step
        rw [if_neg h1, if_neg h3]
      have hcode : (s.push_byte_and_is_string_end N exc c).2 =
          { s with m_cb := s.m_cb.push_elem N c } := by
        unfold string_buf_rx.push_byte_and_is_string_end
        rw [if_neg h1, if_neg (fun hc => h3 ⟨hc.1, hlh.1 hc.2⟩)]
      rw [hspec, hcode]
      have hNF : ls.flatten.length + cur.length + 1 < N := by
        rw [hspec] at hN
        simp only [seg_len, List.length_append, List.length_cons,
          List.length_nil] at hN
        omega
      refine ⟨?_, hel, ?_, het, ?_, heh, ?_, ?_, hends, Nat.zero_le _⟩
      · simp [cyclic_buf.push_elem, List.length_set, hbl]
      · exact hct
      · simp only [cyclic_buf.push_elem, hch]
        rw [Nat.mod_eq_of_lt hNF]
        simp
        omega
      · rw [hle]
      · simp only [cyclic_buf.push_elem, hch, List.length_append,
          List.length_cons, List.length_nil]
        have harith : ls.flatten.length + (cur.length + 1) =
            (ls.flatten.length + cur.length) + 1 := by omega
        rw [harith, take_set_succ _ _ _ (by omega), htake]
        simp [List.append_assoc]

end ATCH

namespace ATCH

theorem take_drop_take {α : Type} (l : List α) (m a n : Nat) (h : a + n ≤ m) :
    ((l.take m).drop a).take n = (l.drop a).take n := by
  apply List.ext_getElem?
  intro j
  rw [List.getElem?_take, List.getElem?_take]
  split
  · rw [List.getElem?_drop, List.getElem?_drop, List.getElem?_take,
      if_pos (by omega)]
  · rfl

theorem rx_push_all_inv (N : Nat) (exc : List Char) :
    ∀ (bs : List Char) (ls : List (List Char)) (cur : List Char)
      (s : string_buf_rx),
      RxSt N ls cur 0 s →
      seg_len (bs.foldl (line_split_step exc) (ls, cur)) < N →
      seg_lines (bs.foldl (line_split_step exc) (ls, cur)) <
        ends_indexes_cb_def_size →
      RxSt N (bs.foldl (line_split_step exc) (ls, cur)).1
        (bs.foldl (line_split_step exc) (ls, cur)).2 0
        (rx_push_all N exc s bs) := by
  intro bs
  induction bs with
  | nil =>
    intro ls cur s h _ _
    exact h
  | cons c rest ih =>
    intro ls cur s h hN h16
    have hfold : (c :: rest).foldl (line_split_step exc) (ls, cur) =
        rest.foldl (line_split_step exc) (line_split_step exc (ls, cur) c) := rfl
    rw [hfold] at hN h16 ⊢
    have hmono := seg_len_foldl_le exc rest (line_split_step exc (ls, cur) c)
    have hstep := rx_push_step N exc ls cur s c h
      (by omega) (by omega)
    have hstate : rx_push_all N exc s (c :: rest) =
        rx_push_all N exc ((s.push_byte_and_is_string_end N exc c).2) rest := rfl
    rw [hstate]
    exact ih (line_split_step exc (ls, cur) c).1
      (line_split_step exc (ls, cur) c).2
      ((s.push_byte_and_is_string_end N exc c).2) hstep hN h16

theorem rx_pop_step (N : Nat) (ls : List (List Char)) (cur : List Char)
    (k : Nat) (s : string_buf_rx) (hst : RxSt N ls cur k s)
    (hk : k < ls.length) (hN : ls.flatten.length + cur.length < N)
    (h16 : ls.length < ends_indexes_cb_def_size) :
    (s.pop_string N).1 = ls.getD k [] ∧
      RxSt N ls cur (k + 1) (s.pop_string N).2 := by
  obtain ⟨hbl, hel, hct, het, hch, heh, hle, htake, hends, hkle⟩ := hst
  have hne2 : ¬ (s.is_empty = true) := by
    simp only [string_buf_rx.is_empty, cyclic_buf.is_empty, heh, het,
      decide_eq_true_eq]
    omega
  have hsumsucc := sum_take_succ ls k hk
  have hsum_le : sum_take ls (k + 1) ≤ ls.flatten.length := sum_take_le ls (k + 1)
  have hendval : s.m_end_indexes_cb.buf.getD s.m_end_indexes_cb.tail 0 =
      sum_take ls (k + 1) := by
    rw [het]
    exact hends k hk
  have hlen : calc_len_in_circular_buffer s.m_cb.tail (sum_take ls (k + 1)) N =
      (ls.getD k []).length := by
    rw [hct]
    unfold calc_len_in_circular_buffer
    rw [if_neg (by omega)]
    omega
  have hchars : (List.range (ls.getD k []).length).map
        (fun i => s.m_cb.buf.getD ((s.m_cb.tail + i) % N) (Char.ofNat 0)) =
      ls.getD k [] := by
    rw [List.map_congr_left (g := fun i =>
        s.m_cb.buf.getD (sum_take ls k + i) (Char.ofNat 0))]
    · rw [slice_map_getD s.m_cb.buf (sum_take ls k) (Char.ofNat 0)
        (ls.getD k []).length (by omega)]
      have hslice : (s.m_cb.buf.drop (sum_take ls k)).take (ls.getD k []).length =
          ((s.m_cb.buf.take (ls.flatten.length + cur.length)).drop
              (sum_take ls k)).take (ls.getD k []).length := by
        rw [take_drop_take _ _ _ _ (by omega)]
      rw [hslice, htake]
      have hsplit : ls.flatten ++ cur =
          (ls.take k).flatten ++ ((ls.getD k []) ++
            ((ls.drop (k + 1)).flatten ++ cur)) := by
        conv_lhs => rw [← List.take_append_drop k ls]
        rw [List.flatten_append, drop_eq_getD_cons ls k [] hk,
          List.flatten_cons]
        simp [List.append_assoc]
      rw [hsplit]
      have hlenA : sum_take ls k = ((ls.take k).flatten).length := rfl
      rw [hlenA, List.drop_left]
      have hlenB : (ls.getD k []).length = (ls.getD k []).length := rfl
      rw [List.take_left]
    · intro i hi
      rw [List.mem_range] at hi
      rw [hct, Nat.mod_eq_of_lt (by omega)]
  have hne3 : s.is_empty = false := by
    cases hb : s.is_empty
    · rfl
    · exact absurd hb hne2
  constructor
  · unfold string_buf_rx.pop_string
    rw [if_neg hne2]
    simp only [cyclic_buf.pop_elem, cyclic_buf.pop_nelems, hendval, hlen]
    exact hchars
  · have hres : (s.pop_string N).2 =
        { m_cb := { s.m_cb with tail := (s.m_cb.tail + (ls.getD k []).length) % N },
          m_end_indexes_cb :=
            { s.m_end_indexes_cb with
              tail := (s.m_end_indexes_cb.tail + 1) % ends_indexes_cb_def_size },
          m_last_end_idx := s.m_last_end_idx } := by
      unfold string_buf_rx.pop_string
      rw [if_neg hne2]
      simp only [cyclic_buf.pop_elem, cyclic_buf.pop_nelems, hendval, hlen]
    rw [hres]
    refine ⟨hbl, hel, ?_, ?_, hch, heh, hle, htake, hends, by omega⟩
    · show (s.m_cb.tail + (ls.getD k []).length) % N = sum_take ls (k + 1)
      rw [hct, Nat.mod_eq_of_lt (by omega)]
      omega
    · show (s.m_end_indexes_cb.tail + 1) % ends_indexes_cb_def_size = k + 1
      rw [het, Nat.mod_eq_of_lt (by omega)]

theorem rx_pop_steps (N : Nat) (ls : List (List Char)) (cur : List Char)
    (hN : ls.flatten.length + cur.length < N)
    (h16 : ls.length < ends_indexes_cb_def_size) :
    ∀ (m k : Nat) (s : string_buf_rx), RxSt N ls cur k s →
      k + m ≤ ls.length →
      (rx_pop_strings N s m).1 = (ls.drop k).take m ∧
        RxSt N ls cur (k + m) (rx_pop_strings N s m).2 := by
  intro m
  induction m with
  | zero =>
    intro k s h _
    exact ⟨rfl, h⟩
  | succ n ih =>
    intro k s h hle
    obtain ⟨h1, h2⟩ := rx_pop_step N ls cur k s h (by omega) hN h16
    obtain ⟨ih1, ih2⟩ := ih (k + 1) (s.pop_string N).2 h2 (by omega)
    constructor
    · show (s.pop_string N).1 :: (rx_pop_strings N (s.pop_string N).2 n).1 = _
      rw [h1, ih1, drop_eq_getD_cons ls k [] (by omega), List.take_succ_cons]
    · have harith : k + (n + 1) = (k + 1) + n := by omega
      rw [harith]
      exact ih2

/--
C6.  From a fresh framer (with `>` configured exceptional), pushing any
byte sequence whose CR/LF/NUL delimiters fully partition it into the
non-empty lines L1…Ln - where a `>` arriving when no byte has been stored
since the last line end forms the one-byte line `>` by itself - and then
calling `pop_string` n times yields exactly L1…Ln in order; consecutive
delimiters produce no line, and one further `pop_string` returns the empty
string.  Capacity hypotheses: the stored bytes fit the byte ring
(overflow is explicitly undefined in the design) and n is below the
line-end ring's capacity of 16.
-/
theorem rx_framer_roundtrip (N : Nat) (bs : List Char)
    (hcur : (line_split ['>'] bs).2 = [])
    (hN : seg_len (line_split ['>'] bs) < N)
    (h16 : seg_lines (line_split ['>'] bs) < ends_indexes_cb_def_size) :
    (rx_pop_strings N (rx_push_all N ['>'] (rx_init N) bs)
        (line_split ['>'] bs).1.length).1 = (line_split ['>'] bs).1 ∧
    (((rx_pop_strings N (rx_push_all N ['>'] (rx_init N) bs)
        (line_split ['>'] bs).1.length).2).pop_string N).1 = [] := by
  have hinit : RxSt N [] [] 0 (rx_init N) := by
    refine ⟨by simp [rx_init], by simp [rx_init], rfl, rfl, rfl, rfl, rfl,
      by simp, ?_, le_refl 0⟩
    intro i hi
    simp at hi
  have hpush := rx_push_all_inv N ['>'] bs [] [] (rx_init N) hinit hN h16
  have hN2 : (line_split ['>'] bs).1.flatten.length +
      (line_split ['>'] bs).2.length < N := hN
  have h162 : (line_split ['>'] bs).1.length < ends_indexes_cb_def_size := h16
  obtain ⟨hp1, hp2⟩ := rx_pop_steps N (line_split ['>'] bs).1
    (line_split ['>'] bs).2 hN2 h162 (line_split ['>'] bs).1.length 0
    (rx_push_all N ['>'] (rx_init N) bs) hpush (by omega)
  constructor
  · rw [hp1, List.drop_zero, List.take_of_length_le (le_refl _)]
  · obtain ⟨-, -, -, het, -, heh, -, -, -, -⟩ := hp2
    unfold string_buf_rx.pop_string
    rw [if_pos ?_]
    simp only [string_buf_rx.is_empty, cyclic_buf.is_empty, het, heh,
      decide_eq_true_eq]
    omega

end ATCH

namespace ATCH

/-- Witness for C6: the byte stream `AB CR > LF C CR` partitions into the
lines `AB`, `>` (the prompt byte alone, without a delimiter), and `C`; a
fresh framer of capacity 8 returns exactly these three lines. -/
theorem rx_framer_roundtrip_witness :
    (line_split ['>'] "AB\r>\nC\r".toList).2 = [] ∧
    (line_split ['>'] "AB\r>\nC\r".toList).1 =
      ["AB".toList, ">".toList, "C".toList] ∧
    (rx_pop_strings 8 (rx_push_all 8 ['>'] (rx_init 8) "AB\r>\nC\r".toList)
        (line_split ['>'] "AB\r>\nC\r".toList).1.length).1 =
      (line_split ['>'] "AB\r>\nC\r".toList).1 := by
  refine ⟨by decide, by decide, ?_⟩
  exact (rx_framer_roundtrip 8 "AB\r>\nC\r".toList (by decide) (by decide)
    (by decide)).1

end ATCH
